import Mathlib

/-!
Verification of the queue-based Bellman-Ford library (bellmanford):
a shallow embedding of src/bellmanford/bellmanford.py and proofs of the
specified properties.

Modelling conventions:
* Nodes are natural numbers (the Python code treats them as opaque
  hashable keys); edge weights are integers (the Python code requires
  numeric weights; the repository and its tests use integers).
* A graph is a node list plus a list of directed weighted edges.  A
  NetworkX multigraph stores parallel edges; here parallel edges are
  repeated entries of the edge list with `multi = true`.  An undirected
  NetworkX graph exposes each edge in both directions through `G.adj`;
  such graphs are represented by a symmetric edge list with
  `directed = false` (the `directed` flag only matters when
  `negative_edge_cycle` adds its virtual node, since an undirected
  `add_edges_from` makes the virtual node visible from both sides).
* Python dict iteration order is insertion order; adjacency is iterated
  in order of first occurrence in the edge list.
* Python dicts are modelled as functions into `Option`; `dict.get` with
  a default is `Option.getD`.
* The `while` loops are modelled with explicit fuel; the lemmas below
  show the chosen fuel can never run out, matching the always
  terminating Python loops.
-/

/-- Errors of the embedded program.  `nodeNotFound` is the `KeyError`
raised by `bellman_ford_tree`, `keyErr` the `KeyError` of a failed dict
lookup in the predecessor walks, `removeErr` the `NetworkXError` of
`G.remove_node` on an absent node, and `fuelExhausted` is a model
artifact that provably never occurs. -/
inductive Err where
  | nodeNotFound : Err
  | keyErr : Err
  | removeErr : Err
  | fuelExhausted : Err
deriving DecidableEq, Repr

/-- A weighted directed graph (NetworkX graph after weight resolution):
node list, edge list `(u, v, w)`, whether it is a multigraph, and
whether it is directed. -/
structure Graph where
  nodes : List Nat
  edges : List (Nat × Nat × Int)
  multi : Bool
  directed : Bool
deriving DecidableEq, Repr

/-- Weights of the parallel edges from `u` to `v` (the values of the
NetworkX edge-data dict `G[u][v]`, with the attribute default 1 already
resolved), in edge-list order. -/
def weightsTo (g : Graph) (u v : Nat) : List Int :=
  ((g.edges.filter fun e => decide (e.1 = u ∧ e.2.1 = v)).map fun e => e.2.2)

/-- Minimum of a list of integers with a default for the empty list. -/
def listMinD : List Int → Int → Int
  | [], d => d
  | x :: xs, _ => xs.foldl min x

/-- `get_weight` of `_bellman_ford_relaxation`: for a multigraph the
minimum weight among the parallel edges `u→v`
(`min(eattr.get(weight, 1) for eattr in edge_dict.values())`), otherwise
the single stored weight (`edge_dict.get(weight, 1)`). -/
def getWeight (g : Graph) (u v : Nat) : Int :=
  if g.multi then listMinD (weightsTo g u v) 1 else (weightsTo g u v).headD 1

/-- First-occurrence deduplication with a seen-set accumulator. -/
def firstDedupAux (seen : List Nat) : List Nat → List Nat
  | [] => []
  | x :: xs =>
    if x ∈ seen then firstDedupAux seen xs
    else x :: firstDedupAux (x :: seen) xs

/-- First-occurrence deduplication, the key order of a Python dict built
by repeated insertion. -/
def firstDedup (l : List Nat) : List Nat := firstDedupAux [] l

/-- The keys of the adjacency dict `G_succ[u]`, in insertion order. -/
def succTargets (g : Graph) (u : Nat) : List Nat :=
  firstDedup ((g.edges.filter fun e => decide (e.1 = u)).map fun e => e.2.1)

/-- The items of `G_succ[u]` with `get_weight` applied to each edge
dict: the successor/weight pairs the relaxation iterates over. -/
def succList (g : Graph) (u : Nat) : List (Nat × Int) :=
  (succTargets g u).map fun v => (v, getWeight g u v)

/-- The weight used by the final length sums in `bellman_ford` and
`negative_edge_cycle`: `G[u][v].get(weight, 1)`.  On a simple graph
`G[u][v]` is the attribute dict and this is the stored weight.  On a
multigraph `G[u][v]` is the keyed dict of parallel edges whose keys are
integers, so looking up the weight-attribute string always misses and
the expression evaluates to the default 1. -/
def pathEdgeWeightCode (g : Graph) (u v : Nat) : Int :=
  if g.multi then 1 else (weightsTo g u v).headD 1

/-- `sum(G[u][v].get(weight, 1) for (u, v) in zip(nodes, nodes[1:]))`. -/
def codeWeightSum (g : Graph) : List Nat → Int
  | a :: b :: t => pathEdgeWeightCode g a b + codeWeightSum g (b :: t)
  | _ => 0

/-- Sum of the resolved edge weights (`get_weight`) along consecutive
pairs of a node sequence. -/
def wsum (g : Graph) : List Nat → Int
  | a :: b :: t => getWeight g a b + wsum g (b :: t)
  | _ => 0

/-- The mutable state of `_bellman_ford_relaxation`: the `dist`,
`pred` and `count` dicts, the deque `q` and the set `in_q`. -/
structure BF where
  dist : Nat → Option Int
  pred : Nat → Option (Option Nat)
  count : Nat → Nat
  q : List Nat
  inq : List Nat

/-- Pointwise update of a function-modelled dict. -/
def fupd {α : Type} (f : Nat → α) (k : Nat) (a : α) : Nat → α :=
  fun x => if x = k then a else f x

/-- `dist_v < dist.get(v, inf)`. -/
def improves (d : Option Int) (dv : Int) : Bool :=
  match d with
  | none => true
  | some x => decide (dv < x)

/-- The inner `for v, e in G_succ[u].items()` loop of
`_bellman_ford_relaxation`, processing the remaining successor items.
Returns the new state and `some u` when the `count_v == n` return
fires (cutting off the rest of the loop, as in the source). -/
def relaxEdges (n u : Nat) (du : Int) : List (Nat × Int) → BF → BF × Option Nat
  | [], st => (st, none)
  | (v, w) :: rest, st =>
    let dv := du + w
    if improves (st.dist v) dv then
      let st1 : BF := { st with
        dist := fupd st.dist v (some dv)
        pred := fupd st.pred v (some (some u)) }
      if v ∈ st1.inq then relaxEdges n u du rest st1
      else
        let cv := st1.count v + 1
        let st2 : BF := { st1 with q := st1.q ++ [v], inq := v :: st1.inq }
        if cv = n then (st2, some u)
        else relaxEdges n u du rest { st2 with count := fupd st2.count v cv }
    else relaxEdges n u du rest st

/-- The skip rule: `pred[u] not in in_q` is false, i.e. the predecessor
of `u` is currently in the queue.  (`pred[u]` would raise on an absent
key; the invariants below show every dequeued node has a `pred` entry,
so the absent branch is unreachable and modelled as no skip.) -/
def skipTest (st : BF) (u : Nat) : Bool :=
  match st.pred u with
  | some (some p) => decide (p ∈ st.inq)
  | _ => false

/-- The `while q:` loop of `_bellman_ford_relaxation`, with fuel.
`dist[u]` would raise on an absent key; the invariants below show every
queued node has a `dist` entry, so the `getD 0` default is
unreachable. -/
def relaxLoop (g : Graph) (n : Nat) : Nat → BF → Option (BF × Option Nat)
  | 0, _ => none
  | fuel + 1, st =>
    match st.q with
    | [] => some (st, none)
    | u :: rest =>
      let st1 : BF := { st with q := rest, inq := st.inq.erase u }
      if skipTest st1 u then relaxLoop g n fuel st1
      else
        match relaxEdges n u ((st1.dist u).getD 0) (succList g u) st1 with
        | (st2, some w) => some (st2, some w)
        | (st2, none) => relaxLoop g n fuel st2

/-- Fuel sufficient for `relaxLoop` (proved below): every iteration
pops one entry, and at most `n` enqueues of each of the `n` nodes can
ever happen beyond the initial sources. -/
def loopFuel (g : Graph) (source : List Nat) : Nat :=
  g.nodes.length * g.nodes.length + source.length + 1

/-- `_bellman_ford_relaxation(G, pred, dist, source, weight)`. -/
def bellman_ford_relaxation (g : Graph) (pred0 : Nat → Option (Option Nat))
    (dist0 : Nat → Option Int) (source : List Nat) :
    Option (BF × Option Nat) :=
  relaxLoop g g.nodes.length (loopFuel g source)
    { dist := dist0, pred := pred0, count := fun _ => 0,
      q := source, inq := source }

/-- `bellman_ford_tree(G, source, weight)`: raises `KeyError` when the
source is not in the graph, otherwise runs the relaxation from the
single source. -/
def bellman_ford_tree (g : Graph) (source : Nat) :
    Except Err ((Nat → Option (Option Nat)) × (Nat → Option Int) × Option Nat) :=
  if source ∈ g.nodes then
    match bellman_ford_relaxation g
        (fupd (fun _ => none) source (some none))
        (fupd (fun _ => none) source (some 0)) [source] with
    | some (st, w) => .ok (st.pred, st.dist, w)
    | none => .error .fuelExhausted
  else .error .nodeNotFound

/-- The cycle-extraction walk shared by `bellman_ford` and
`negative_edge_cycle`: prepend the current node, stop when the node
just prepended already occurs in the list, truncating to the span
between its two occurrences; otherwise follow `pred`.  Reaching a node
whose predecessor entry is absent raises `KeyError`; reaching the root
marker `None` makes the Python loop prepend `None` and then raise
`KeyError` on `pred[None]`, so both are modelled as `keyErr`. -/
def walkCycle (pred : Nat → Option (Option Nat)) :
    Nat → Nat → List Nat → Except Err (List Nat)
  | 0, _, _ => .error .fuelExhausted
  | fuel + 1, e, acc =>
    if 1 < (e :: acc).count e then
      .ok ((e :: acc).take (acc.indexOf e + 2))
    else
      match pred e with
      | some (some p) => walkCycle pred fuel p (e :: acc)
      | _ => .error .keyErr

/-- The path-extraction walk of `bellman_ford`: prepend the current
node; if `pred.get(end, None) is None` then stop — with an empty result
when the terminal node is not the source — else follow `pred`. -/
def walkPath (pred : Nat → Option (Option Nat)) (source : Nat) :
    Nat → Nat → List Nat → Except Err (List Nat)
  | 0, _, _ => .error .fuelExhausted
  | fuel + 1, e, acc =>
    match pred e with
    | some (some p) => walkPath pred source fuel p (e :: acc)
    | _ => if e = source then .ok (e :: acc) else .ok []

/-- `bellman_ford(G, source, target, weight)`: build the tree, extract
either the negative cycle or the source→target path, and sum
`G[u][v].get(weight, 1)` along the result (`inf` for an empty path). -/
def bellman_ford (g : Graph) (source target : Nat) :
    Except Err (WithTop Int × List Nat × Bool) := do
  let (pred, _dist, negative_cycle_end) ← bellman_ford_tree g source
  let (nodes, negative_cycle) ←
    match negative_cycle_end with
    | some w => do
        let nodes ← walkCycle pred (g.nodes.length + 3) w []
        pure (nodes, true)
    | none => do
        let nodes ← walkPath pred source (g.nodes.length + 2) target []
        pure (nodes, false)
  let length : WithTop Int :=
    if nodes = [] then ⊤ else (codeWeightSum g nodes : Int)
  pure (length, nodes, negative_cycle)

/-- `G.add_edges_from([(newnode, n) for n in G])`: no-op on an empty
graph; otherwise the virtual node is added with an unweighted edge to
every node (weight resolves to the default 1), and on an undirected
graph each such edge is traversable in both directions. -/
def addVirtualEdges (g : Graph) (nv : Nat) : Graph :=
  if g.nodes = [] then g
  else
    { g with
      nodes := g.nodes ++ [nv]
      edges := g.edges ++ (g.nodes.map fun x => (nv, x, (1 : Int)))
        ++ (if g.directed then [] else g.nodes.map fun x => (x, nv, (1 : Int))) }

/-- `G.remove_node(newnode)`: raises `NetworkXError` when the node is
absent, otherwise removes the node and every edge incident to it. -/
def removeNode (g : Graph) (x : Nat) : Except Err Graph :=
  if x ∈ g.nodes then
    .ok { g with
      nodes := g.nodes.erase x
      edges := g.edges.filter fun e => decide (e.1 ≠ x ∧ e.2.1 ≠ x) }
  else .error .removeErr

/-- The body of the `try:` block of `negative_edge_cycle`, run on the
graph already holding the virtual node. -/
def negative_edge_cycle_body (g1 : Graph) (nv : Nat) :
    Except Err (Option Int × Option (List Nat) × Bool) := do
  let (pred, _dist, negative_cycle_end) ← bellman_ford_tree g1 nv
  match negative_cycle_end with
  | some w => do
      let nodes ← walkCycle pred (g1.nodes.length + 3) w []
      pure (some (codeWeightSum g1 nodes), some nodes, true)
  | none => pure (none, none, false)

/-- `negative_edge_cycle(G, weight)`, with `nv` the freshly generated
unique node.  The `try/finally` is modelled exactly: the cleanup
`G.remove_node(newnode)` runs on every exit path, and an error raised
by the cleanup supersedes the body's outcome.  The final graph is
returned alongside the result to state the frame properties. -/
def negative_edge_cycle (g : Graph) (nv : Nat) :
    Except Err (Option Int × Option (List Nat) × Bool) × Graph :=
  let g1 := addVirtualEdges g nv
  match removeNode g1 nv with
  | .error e => (.error e, g1)
  | .ok g2 =>
    match negative_edge_cycle_body g1 nv with
    | .ok r => (.ok r, g2)
    | .error e => (.error e, g2)

/-- Well-formedness of a graph value: distinct node labels, edge
endpoints drawn from the node list, and no duplicate (source, target)
pairs unless the graph is a multigraph. -/
structure GWF (g : Graph) : Prop where
  nodup : g.nodes.Nodup
  srcMem : ∀ e ∈ g.edges, e.1 ∈ g.nodes
  tgtMem : ∀ e ∈ g.edges, e.2.1 ∈ g.nodes

/-- The simple shortest-path scenario of src/test/simple.py. -/
def gSimple : Graph :=
  ⟨[1, 2, 3, 4], [(1, 2, 1), (1, 3, 100), (2, 3, 1), (2, 4, 100), (3, 4, 1)],
    false, true⟩

/-- The negative-cycle scenario of src/test/negative_cycle.py. -/
def gNegCycle : Graph :=
  ⟨[1, 2, 3, 4], [(1, 2, 1), (1, 3, 1), (2, 3, 1), (3, 2, -101), (2, 4, 1), (3, 4, 1)],
    false, true⟩

/-- The disconnected scenario of src/test/disconnected.py. -/
def gDisconnected : Graph :=
  ⟨[1, 2, 3, 4], [(1, 2, 1), (3, 4, 1)], false, true⟩

/-- A multigraph with two parallel edges 1→2 of weights 3 and 5. -/
def gMulti : Graph :=
  ⟨[1, 2], [(1, 2, 3), (1, 2, 5)], true, true⟩

/-- A single node carrying a negative-weight self-loop. -/
def gSelfLoop : Graph :=
  ⟨[0], [(0, 0, -1)], false, true⟩

/-- The empty graph. -/
def gEmpty : Graph :=
  ⟨[], [], false, true⟩

/-- The undirected graph (symmetric edge list) on which
`negative_edge_cycle` reports a cycle that passes through the virtual
super-source node. -/
def gUndirNV : Graph :=
  ⟨[0, 1, 2, 3, 4],
   [(0, 3, 0), (3, 0, 0), (2, 3, -1), (3, 2, -1), (0, 4, -4), (4, 0, -4),
    (1, 3, -3), (3, 1, -3)],
   false, false⟩

/-- One step backwards through the predecessor map: `b` is the stored
predecessor of `a`. -/
def PredStep (st : BF) (a b : Nat) : Prop :=
  st.pred a = some (some b)

/-- Walking predecessors from `x` reaches some node currently in the
queue. -/
def ChainToInq (st : BF) (x : Nat) : Prop :=
  ∃ m, Relation.ReflTransGen (PredStep st) x m ∧ m ∈ st.inq

/-- All outgoing edges of `x` are relaxed: each successor's distance is
at most `x`'s distance plus the resolved edge weight. -/
def EdgesRelaxed (g : Graph) (st : BF) (x : Nat) : Prop :=
  ∀ p ∈ succList g x, ∃ dx dv,
    st.dist x = some dx ∧ st.dist p.1 = some dv ∧ dv ≤ dx + p.2

/-- A closed cycle of the predecessor map, listed in forward (edge)
direction: the list has at least one edge, its first and last entries
coincide, and each adjacent pair `(a, b)` satisfies `pred b = a`. -/
def PredCycleL (st : BF) (l : List Nat) : Prop :=
  2 ≤ l.length ∧ l.head? = l.getLast? ∧
    List.Chain' (fun a b => st.pred b = some (some a)) l

/-- A walk from `s` to `x` along graph edges (nonempty node list with
consecutive adjacency). -/
def IsWalk (g : Graph) (s x : Nat) (l : List Nat) : Prop :=
  l.head? = some s ∧ l.getLast? = some x ∧
    List.Chain' (fun a b => b ∈ succTargets g a) l

/-- `x` is reachable from `s` along graph edges. -/
def Reach (g : Graph) (s x : Nat) : Prop :=
  ∃ l, IsWalk g s x l

/-- A simple cycle of the graph: a closed walk of at least one edge
whose nodes after the head are pairwise distinct. -/
def IsCycle (g : Graph) (l : List Nat) : Prop :=
  2 ≤ l.length ∧ l.head? = l.getLast? ∧ l.tail.Nodup ∧
    List.Chain' (fun a b => b ∈ succTargets g a) l

/-- No negative-weight (simple) cycle is reachable from `s`. -/
def NoNegCycleFrom (g : Graph) (s : Nat) : Prop :=
  ∀ l, IsCycle g l → (∀ x ∈ l, Reach g s x) → 0 ≤ wsum g l

/-- The cross-iteration invariant of the relaxation loop, for the run
rooted at the single source `s`. -/
structure LoopInv (g : Graph) (s : Nat) (st : BF) : Prop where
  qinq : ∀ x, x ∈ st.inq ↔ x ∈ st.q
  qnodup : st.q.Nodup
  inqnodup : st.inq.Nodup
  domIff : ∀ x, (st.dist x).isSome ↔ (st.pred x).isSome
  qdom : ∀ x ∈ st.q, (st.dist x).isSome
  domNodes : ∀ x, (st.dist x).isSome → x ∈ g.nodes
  countBound : ∀ x, st.count x < g.nodes.length
  countNodes : ∀ x, x ∉ g.nodes → st.count x = 0
  predRoot : ∀ x, st.pred x = some none → x = s
  predEdge : ∀ x y, st.pred x = some (some y) → x ∈ succTargets g y
  feas : ∀ x y, st.pred x = some (some y) → ∃ dy dx,
    st.dist y = some dy ∧ st.dist x = some dx ∧ dy + getWeight g y x ≤ dx
  feasStrict : ∀ x y, st.pred x = some (some y) → y ∈ st.inq → ∃ dy dx,
    st.dist y = some dy ∧ st.dist x = some dx ∧ dy + getWeight g y x < dx
  walkVal : ∀ x d, st.dist x = some d → ∃ l, IsWalk g s x l ∧ wsum g l = d
  relaxedOr : ∀ x, (st.dist x).isSome → EdgesRelaxed g st x ∨ ChainToInq st x
  negCyc : ∀ l, PredCycleL st l → wsum g l < 0
  selfLoopNeg : ∀ x, st.pred x = some (some x) → getWeight g x x < 0
  distSrc : ∃ d, st.dist s = some d ∧ d ≤ 0

/-- The mid-fold invariant while the inner loop of the relaxation is
processing the successors of `u` with cached distance `du`: `st1` is
the state just after dequeuing `u`, `done` the processed items. -/
structure FInv (g : Graph) (s u : Nat) (du : Int) (done : List (Nat × Int))
    (st1 st : BF) : Prop where
  qinq : ∀ x, x ∈ st.inq ↔ x ∈ st.q
  qnodup : st.q.Nodup
  inqnodup : st.inq.Nodup
  domIff : ∀ x, (st.dist x).isSome ↔ (st.pred x).isSome
  qdom : ∀ x ∈ st.q, (st.dist x).isSome
  domNodes : ∀ x, (st.dist x).isSome → x ∈ g.nodes
  countBound : ∀ x, st.count x < g.nodes.length
  countNodes : ∀ x, x ∉ g.nodes → st.count x = 0
  predRoot : ∀ x, st.pred x = some none → x = s
  predEdge : ∀ x y, st.pred x = some (some y) → x ∈ succTargets g y
  feas : ∀ x y, st.pred x = some (some y) → ∃ dy dx,
    st.dist y = some dy ∧ st.dist x = some dx ∧ dy + getWeight g y x ≤ dx
  feasStrict : ∀ x y, st.pred x = some (some y) → y ∈ st.inq → ∃ dy dx,
    st.dist y = some dy ∧ st.dist x = some dx ∧ dy + getWeight g y x < dx
  walkVal : ∀ x d, st.dist x = some d → ∃ l, IsWalk g s x l ∧ wsum g l = d
  negCyc : ∀ l, PredCycleL st l → wsum g l < 0
  selfLoopNeg : ∀ x, st.pred x = some (some x) → getWeight g x x < 0
  distSrc : ∃ d, st.dist s = some d ∧ d ≤ 0
  mfOut : u ∉ st.inq → st.dist u = some du
  mfIn : u ∈ st.inq → ∃ d, st.dist u = some d ∧ d < du
  walkDu : ∃ l, IsWalk g s u l ∧ wsum g l = du
  procRelaxed : ∀ p ∈ done, ∃ dv, st.dist p.1 = some dv ∧ dv ≤ du + p.2
  distMono : ∀ x d1, st1.dist x = some d1 → ∃ d2, st.dist x = some d2 ∧ d2 ≤ d1
  chgD : ∀ x, st.dist x ≠ st1.dist x → x ∈ st.inq
  chgP : ∀ x, st.pred x ≠ st1.pred x → x ∈ st.inq
  inqMono : ∀ x ∈ st1.inq, x ∈ st.inq

/-- A backward predecessor chain: each entry's stored predecessor is
the next entry. -/
def BackChain (st : BF) (l : List Nat) : Prop :=
  List.Chain' (fun a b => st.pred a = some (some b)) l

/-- Ghost instrumentation of a loop state: a per-node assignment phase
`tau`, the phase `lastTag` of each node's most recent enqueue, the
phase `cur` of the current dequeue, and the enqueue phases `tags` of
the queued entries in queue order. -/
structure Ghost where
  tau : Nat → Nat
  lastTag : Nat → Nat
  cur : Nat
  tags : List Nat

/-- The ghost invariant tying the instrumentation to a state: phases
are bounded by `cur + 1`, every keyed node has a backward predecessor
chain at least as long as its phase, a node out of the queue was last
enqueued no later than `cur`, enqueue counts are bounded by the last
enqueue phase, phases dominate enqueue phases, and the queue tags are
nondecreasing, within one of `cur`, and record the queued nodes' last
enqueue phases. -/
structure GInvL (st : BF) (gh : Ghost) : Prop where
  glob : ∀ x, gh.tau x ≤ gh.cur + 1
  chain : ∀ x, (st.dist x).isSome → ∃ l, l.head? = some x ∧
    gh.tau x + 1 ≤ l.length ∧ BackChain st l ∧ ∀ y ∈ l, (st.dist y).isSome
  tout : ∀ x, x ∉ st.inq → gh.lastTag x ≤ gh.cur
  tcount : ∀ x, st.count x ≤ gh.lastTag x
  tle : ∀ x, gh.lastTag x ≤ gh.tau x
  tpw : gh.tags.Pairwise (· ≤ ·)
  tspan : ∀ t ∈ gh.tags, gh.cur ≤ t ∧ t ≤ gh.cur + 1
  talign : List.Forall₂ (fun t x => t = gh.lastTag x) gh.tags st.q

/-- Termination measure of the relaxation loop: queue length plus the
total remaining enqueue budget of the nodes. -/
def measureM (g : Graph) (st : BF) : Nat :=
  st.q.length + (g.nodes.map fun v => g.nodes.length - st.count v).sum

/-- A simple path from `s` to `x`: a walk without repeated nodes. -/
def IsPath (g : Graph) (s x : Nat) (l : List Nat) : Prop :=
  IsWalk g s x l ∧ l.Nodup

/-- Removing the freshly added virtual node restores the node list. -/
theorem erase_append_self (l : List Nat) (x : Nat) (hx : x ∉ l) :
    (l ++ [x]).erase x = l := by
  rw [List.erase_append_right _ hx]
  simp

/-- Filtering away the virtual node's edges restores the edge list. -/
theorem filter_append_virtual (E C : List (Nat × Nat × Int)) (nv : Nat)
    (hE : ∀ e ∈ E, e.1 ≠ nv ∧ e.2.1 ≠ nv)
    (hC : ∀ e ∈ C, e.1 = nv ∨ e.2.1 = nv) :
    (E ++ C).filter (fun e => decide (e.1 ≠ nv ∧ e.2.1 ≠ nv)) = E := by
  induction E with
  | nil =>
    simp only [List.nil_append]
    rw [List.filter_eq_nil_iff]
    intro e he
    rcases hC e he with h | h <;> simp [h]
  | cons a E ih =>
    have ha := hE a (by simp)
    simp only [List.cons_append]
    rw [List.filter_cons_of_pos (by simpa using ha)]
    rw [ih (fun e he => hE e (by simp [he]))]

/-- C5 core lemma: on a non-empty well-formed graph the graph returned
by `negative_edge_cycle` is the input graph itself, whatever the body
does. -/
theorem negative_edge_cycle_graph_eq (g : Graph) (nv : Nat)
    (hne : g.nodes ≠ []) (hnv : nv ∉ g.nodes)
    (hsrc : ∀ e ∈ g.edges, e.1 ∈ g.nodes)
    (htgt : ∀ e ∈ g.edges, e.2.1 ∈ g.nodes) :
    (negative_edge_cycle g nv).2 = g := by
  have hg1 : addVirtualEdges g nv =
      { g with
        nodes := g.nodes ++ [nv]
        edges := g.edges ++ ((g.nodes.map fun x => (nv, x, (1 : Int)))
          ++ (if g.directed then [] else g.nodes.map fun x => (x, nv, (1 : Int)))) } := by
    unfold addVirtualEdges
    simp [hne, List.append_assoc]
  have hC : ∀ e ∈ ((g.nodes.map fun x => (nv, x, (1 : Int)))
      ++ (if g.directed then [] else g.nodes.map fun x => (x, nv, (1 : Int)))),
      e.1 = nv ∨ e.2.1 = nv := by
    intro e he
    rcases List.mem_append.1 he with h | h
    · obtain ⟨x, _, rfl⟩ := List.mem_map.1 h
      left; rfl
    · cases hd : g.directed
      · rw [if_neg (by simp [hd])] at h
        obtain ⟨x, _, rfl⟩ := List.mem_map.1 h
        right; rfl
      · rw [if_pos (by simp [hd])] at h
        simp at h
  have hE : ∀ e ∈ g.edges, e.1 ≠ nv ∧ e.2.1 ≠ nv := by
    intro e he
    exact ⟨fun h => hnv (h ▸ hsrc e he), fun h => hnv (h ▸ htgt e he)⟩
  have hrem : removeNode (addVirtualEdges g nv) nv = .ok g := by
    rw [hg1]
    unfold removeNode
    rw [if_pos (by simp)]
    have h1 : ((g.nodes ++ [nv]).erase nv) = g.nodes := erase_append_self _ _ hnv
    have h2 := filter_append_virtual g.edges _ nv hE hC
    simp only [h1, h2]
  simp only [negative_edge_cycle, hrem]
  cases negative_edge_cycle_body (addVirtualEdges g nv) nv <;> rfl

/-- C6: for every graph and every node `s` not contained in it,
`bellman_ford_tree` called with source `s` — and `bellman_ford`, which
delegates to it — fails with the node-not-found error, returning no
predecessor or distance maps. -/
theorem C6_missing_source_error (g : Graph) (s t : Nat) (hs : s ∉ g.nodes) :
    bellman_ford_tree g s = .error .nodeNotFound ∧
    bellman_ford g s t = .error .nodeNotFound := by
  have h1 : bellman_ford_tree g s = .error .nodeNotFound := by
    unfold bellman_ford_tree
    rw [if_neg hs]
  refine ⟨h1, ?_⟩
  unfold bellman_ford
  rw [h1]
  rfl

/-- Witness for C6 at a concrete input: node 7 is absent from the
simple test graph. -/
theorem C6_missing_source_error_witness :
    7 ∉ gSimple.nodes ∧
    bellman_ford_tree gSimple 7 = .error .nodeNotFound ∧
    bellman_ford gSimple 7 4 = .error .nodeNotFound :=
  ⟨by decide, (C6_missing_source_error gSimple 7 4 (by decide)).1,
    (C6_missing_source_error gSimple 7 4 (by decide)).2⟩

/-- C5: for every non-empty well-formed graph, after
`negative_edge_cycle` completes — whatever the body of the `try` block
returned — the virtual node and every edge incident to it are absent
from the graph, and the graph's node and edge sets equal their pre-call
values. -/
theorem C5_virtual_node_cleanup (g : Graph) (nv : Nat)
    (hne : g.nodes ≠ []) (hnv : nv ∉ g.nodes)
    (hsrc : ∀ e ∈ g.edges, e.1 ∈ g.nodes)
    (htgt : ∀ e ∈ g.edges, e.2.1 ∈ g.nodes) :
    (negative_edge_cycle g nv).2.nodes = g.nodes ∧
    (negative_edge_cycle g nv).2.edges = g.edges ∧
    nv ∉ (negative_edge_cycle g nv).2.nodes ∧
    ∀ e ∈ (negative_edge_cycle g nv).2.edges, e.1 ≠ nv ∧ e.2.1 ≠ nv := by
  have h := negative_edge_cycle_graph_eq g nv hne hnv hsrc htgt
  rw [h]
  refine ⟨rfl, rfl, hnv, fun e he => ⟨fun h1 => hnv (h1 ▸ hsrc e he),
    fun h2 => hnv (h2 ▸ htgt e he)⟩⟩

/-- Witness for C5 at a concrete input: the negative-cycle test graph
with virtual node 99. -/
theorem C5_virtual_node_cleanup_witness :
    gNegCycle.nodes ≠ [] ∧ 99 ∉ gNegCycle.nodes ∧
    (negative_edge_cycle gNegCycle 99).2.nodes = gNegCycle.nodes ∧
    (negative_edge_cycle gNegCycle 99).2.edges = gNegCycle.edges ∧
    99 ∉ (negative_edge_cycle gNegCycle 99).2.nodes :=
  ⟨by decide, by decide,
    (C5_virtual_node_cleanup gNegCycle 99 (by decide) (by decide)
      (by decide) (by decide)).1,
    (C5_virtual_node_cleanup gNegCycle 99 (by decide) (by decide)
      (by decide) (by decide)).2.1,
    (C5_virtual_node_cleanup gNegCycle 99 (by decide) (by decide)
      (by decide) (by decide)).2.2.1⟩

/-- C10: called on a graph with no nodes, `negative_edge_cycle` raises
an error rather than returning a no-cycle result: the virtual node is
never actually added, the engine rejects it as an absent source, and
the cleanup's removal of the never-added node fails as well (the
cleanup error supersedes, as with an exception raised in a `finally`
block). -/
theorem C10_empty_graph_error (g : Graph) (nv : Nat) (h : g.nodes = []) :
    addVirtualEdges g nv = g ∧
    bellman_ford_tree (addVirtualEdges g nv) nv = .error .nodeNotFound ∧
    removeNode (addVirtualEdges g nv) nv = .error .removeErr ∧
    (negative_edge_cycle g nv).1 = .error .removeErr := by
  have hadd : addVirtualEdges g nv = g := by
    unfold addVirtualEdges
    rw [if_pos h]
  have hnv : nv ∉ g.nodes := by
    rw [h]
    simp
  have htree : bellman_ford_tree g nv = .error .nodeNotFound := by
    unfold bellman_ford_tree
    rw [if_neg hnv]
  have hrm : removeNode g nv = .error .removeErr := by
    unfold removeNode
    rw [if_neg hnv]
  refine ⟨hadd, by rw [hadd]; exact htree, by rw [hadd]; exact hrm, ?_⟩
  unfold negative_edge_cycle
  simp only [hadd, hrm]

/-- Witness for C10 at a concrete input: the empty graph. -/
theorem C10_empty_graph_error_witness :
    gEmpty.nodes = [] ∧
    (negative_edge_cycle gEmpty 0).1 = .error .removeErr :=
  ⟨rfl, (C10_empty_graph_error gEmpty 0 rfl).2.2.2⟩

/-- C4 (code bug): on the multigraph with parallel edges 1→2 of
weights 3 and 5, the relaxation resolves the pair 1→2 to the minimum
parallel weight 3 — the engine's distance map says 3 — yet
`bellman_ford` reports length 1, because the final sum evaluates
`G[u][v].get(weight, 1)` on the keyed dict of parallel edges, whose
integer keys never equal the weight-attribute string, so every edge
contributes the default 1 instead of the resolved minimum weight. -/
theorem C4_multigraph_length_bug :
    gMulti.multi = true ∧
    getWeight gMulti 1 2 = 3 ∧
    (bellman_ford_tree gMulti 1).toOption.map (fun r => r.2.1 2) =
      some (some 3) ∧
    bellman_ford gMulti 1 2 = .ok (((1 : Int) : WithTop Int), [1, 2], false) :=
  ⟨rfl, rfl, rfl, rfl⟩

/-- C8 counterexample: on a single node 0 with a self-loop of weight
−1, the predecessor map returned by `bellman_ford_tree` maps node 0 to
itself, refuting "the predecessor map never assigns a node as its own
direct predecessor". -/
theorem C8_pred_self_counterexample :
    (bellman_ford_tree gSelfLoop 0).toOption.map (fun r => r.1 0) =
      some (some (some 0)) := rfl

theorem mem_firstDedupAux (seen l : List Nat) (x : Nat) :
    x ∈ firstDedupAux seen l ↔ x ∈ l ∧ x ∉ seen := by
  induction l generalizing seen with
  | nil => simp [firstDedupAux]
  | cons a t ih =>
    by_cases ha : a ∈ seen
    · rw [firstDedupAux, if_pos ha, ih]
      constructor
      · rintro ⟨h1, h2⟩
        exact ⟨List.mem_cons_of_mem _ h1, h2⟩
      · rintro ⟨h1, h2⟩
        rcases List.mem_cons.1 h1 with rfl | h1
        · exact absurd ha h2
        · exact ⟨h1, h2⟩
    · rw [firstDedupAux, if_neg ha]
      constructor
      · intro h
        rcases List.mem_cons.1 h with rfl | h
        · exact ⟨List.mem_cons_self _ _, ha⟩
        · rw [ih] at h
          refine ⟨List.mem_cons_of_mem _ h.1, fun hx => h.2 (by simp [hx])⟩
      · rintro ⟨h1, h2⟩
        rcases List.mem_cons.1 h1 with rfl | h1
        · exact List.mem_cons_self _ _
        · by_cases hxa : x = a
          · subst hxa
            exact List.mem_cons_self _ _
          · refine List.mem_cons_of_mem _ ?_
            rw [ih]
            exact ⟨h1, by simp [hxa, h2]⟩

theorem nodup_firstDedupAux (seen l : List Nat) :
    (firstDedupAux seen l).Nodup := by
  induction l generalizing seen with
  | nil => simp [firstDedupAux]
  | cons a t ih =>
    by_cases ha : a ∈ seen
    · rw [firstDedupAux, if_pos ha]
      exact ih seen
    · rw [firstDedupAux, if_neg ha]
      refine List.Nodup.cons ?_ (ih (a :: seen))
      intro hmem
      rw [mem_firstDedupAux] at hmem
      exact hmem.2 (by simp)

theorem mem_succTargets (g : Graph) (u v : Nat) :
    v ∈ succTargets g u ↔ ∃ w, (u, v, w) ∈ g.edges := by
  unfold succTargets firstDedup
  rw [mem_firstDedupAux]
  simp only [List.not_mem_nil, not_false_iff, and_true, List.mem_map,
    List.mem_filter, decide_eq_true_eq]
  constructor
  · rintro ⟨e, ⟨he, h1⟩, h2⟩
    refine ⟨e.2.2, ?_⟩
    rw [← h1, ← h2]
    exact he
  · rintro ⟨w, hw⟩
    exact ⟨(u, v, w), ⟨hw, rfl⟩, rfl⟩

theorem nodup_succTargets (g : Graph) (u : Nat) :
    (succTargets g u).Nodup := nodup_firstDedupAux _ _

theorem mem_succList (g : Graph) (u : Nat) (p : Nat × Int) :
    p ∈ succList g u ↔ p.1 ∈ succTargets g u ∧ p.2 = getWeight g u p.1 := by
  unfold succList
  rw [List.mem_map]
  constructor
  · rintro ⟨v, hv, rfl⟩
    exact ⟨hv, rfl⟩
  · rintro ⟨h1, h2⟩
    exact ⟨p.1, h1, by rw [← h2]⟩

theorem succTargets_mem_nodes (g : Graph) (hg : GWF g) (u v : Nat)
    (h : v ∈ succTargets g u) : v ∈ g.nodes := by
  rw [mem_succTargets] at h
  obtain ⟨w, hw⟩ := h
  exact hg.tgtMem _ hw

theorem wsum_append_last (g : Graph) (l : List Nat) (a v : Nat)
    (hl : l.getLast? = some a) :
    wsum g (l ++ [v]) = wsum g l + getWeight g a v := by
  induction l with
  | nil => simp at hl
  | cons b t ih =>
    cases t with
    | nil =>
      simp only [List.getLast?_singleton, Option.some.injEq] at hl
      subst hl
      simp [wsum]
    | cons c t2 =>
      have ht : (c :: t2).getLast? = some a := by
        rw [List.getLast?_cons_cons] at hl
        exact hl
      have := ih ht
      simp only [List.cons_append, List.append_eq, wsum] at this ⊢
      rw [this]
      ring

theorem isWalk_single (g : Graph) (s : Nat) : IsWalk g s s [s] := by
  refine ⟨rfl, rfl, ?_⟩
  simp

theorem isWalk_extend (g : Graph) (s u v : Nat) (l : List Nat)
    (h : IsWalk g s u l) (he : v ∈ succTargets g u) :
    IsWalk g s v (l ++ [v]) := by
  obtain ⟨h1, h2, h3⟩ := h
  cases l with
  | nil => simp at h1
  | cons a t =>
    refine ⟨by simpa using h1, ?_, ?_⟩
    · rw [List.getLast?_concat]
    · rw [List.chain'_append]
      refine ⟨h3, by simp, ?_⟩
      intro x hx y hy
      simp only [List.head?_cons, Option.mem_def, Option.some.injEq] at hy
      subst hy
      rw [Option.mem_def, h2] at hx
      injection hx with hx
      subst hx
      exact he

theorem isWalk_wsum_extend (g : Graph) (s u v : Nat) (l : List Nat)
    (h : IsWalk g s u l) :
    wsum g (l ++ [v]) = wsum g l + getWeight g u v :=
  wsum_append_last g l u v h.2.1

theorem map_fst_succList (g : Graph) (u : Nat) :
    (succList g u).map Prod.fst = succTargets g u := by
  unfold succList
  rw [List.map_map]
  have h : (Prod.fst ∘ fun v => (v, getWeight g u v)) = id := rfl
  rw [h, List.map_id]

theorem relaxEdges_pred_frozen (n u : Nat) (du : Int) (items : List (Nat × Int))
    (st : BF) (x : Nat) (hx : x ∉ items.map Prod.fst) :
    ((relaxEdges n u du items st).1).pred x = st.pred x := by
  induction items generalizing st with
  | nil => rfl
  | cons p rest ih =>
    obtain ⟨v, w⟩ := p
    have hxv : x ≠ v := by
      intro h
      exact hx (by simp [h])
    have hxrest : x ∉ rest.map Prod.fst := fun h => hx (by simp [h])
    rw [relaxEdges]
    by_cases h1 : improves (st.dist v) (du + w)
    · rw [if_pos h1]
      by_cases h2 : v ∈ (v :: st.inq).tail
      · simp only [List.tail_cons] at h2
        rw [if_pos h2, ih _ hxrest]
        simp [fupd, hxv]
      · simp only [List.tail_cons] at h2
        rw [if_neg h2]
        by_cases h3 : st.count v + 1 = n
        · rw [if_pos h3]
          simp [fupd, hxv]
        · rw [if_neg h3, ih _ hxrest]
          simp [fupd, hxv]
    · rw [if_neg h1]
      exact ih _ hxrest

theorem relaxLoop_zero (g : Graph) (n : Nat) (st : BF) :
    relaxLoop g n 0 st = none := rfl

theorem relaxLoop_succ_nil (g : Graph) (n fuel : Nat) (st : BF)
    (hq : st.q = []) : relaxLoop g n (fuel + 1) st = some (st, none) := by
  rw [relaxLoop, hq]

theorem relaxLoop_succ_cons (g : Graph) (n fuel : Nat) (st : BF)
    (u : Nat) (rest : List Nat) (hq : st.q = u :: rest) :
    relaxLoop g n (fuel + 1) st =
      (if skipTest { st with q := rest, inq := st.inq.erase u } u then
        relaxLoop g n fuel { st with q := rest, inq := st.inq.erase u }
      else
        match relaxEdges n u
            ((({ st with q := rest, inq := st.inq.erase u } : BF).dist u).getD 0)
            (succList g u) { st with q := rest, inq := st.inq.erase u } with
        | (st2, some w) => some (st2, some w)
        | (st2, none) => relaxLoop g n fuel st2) := by
  rw [relaxLoop, hq]

theorem relaxLoop_pred_frozen (g : Graph) (n : Nat) (fuel : Nat) (st : BF)
    (st' : BF) (w : Option Nat) (x : Nat)
    (hx : ∀ u, x ∉ succTargets g u)
    (h : relaxLoop g n fuel st = some (st', w)) :
    st'.pred x = st.pred x := by
  induction fuel generalizing st with
  | zero => rw [relaxLoop_zero] at h; exact absurd h (by simp)
  | succ fuel ih =>
    match hq : st.q with
    | [] =>
      rw [relaxLoop_succ_nil g n fuel st hq] at h
      simp only [Option.some.injEq, Prod.mk.injEq] at h
      rw [← h.1]
    | u :: rest =>
      rw [relaxLoop_succ_cons g n fuel st u rest hq] at h
      by_cases hskip : skipTest { st with q := rest, inq := st.inq.erase u } u
      · rw [if_pos hskip] at h
        exact ih { st with q := rest, inq := st.inq.erase u } h
      · rw [if_neg hskip] at h
        have hfrozen := relaxEdges_pred_frozen n u
          ((({ st with q := rest, inq := st.inq.erase u } : BF).dist u).getD 0)
          (succList g u) { st with q := rest, inq := st.inq.erase u } x
          (by rw [map_fst_succList]; exact hx u)
        match hr : relaxEdges n u
            ((({ st with q := rest, inq := st.inq.erase u } : BF).dist u).getD 0)
            (succList g u) { st with q := rest, inq := st.inq.erase u } with
        | (st2, some wit) =>
          rw [hr] at h hfrozen
          simp only [Option.some.injEq, Prod.mk.injEq] at h
          rw [← h.1]
          exact hfrozen
        | (st2, none) =>
          rw [hr] at h hfrozen
          rw [ih st2 h]
          exact hfrozen

theorem walkCycle_ok_mem (pred : Nat → Option (Option Nat)) (fuel : Nat)
    (e : Nat) (acc : List Nat) (l : List Nat)
    (hacc : ∀ a ∈ acc, ∃ y, pred a = some (some y))
    (h : walkCycle pred fuel e acc = .ok l) :
    ∀ x ∈ l, ∃ y, pred x = some (some y) := by
  induction fuel generalizing e acc with
  | zero => simp [walkCycle] at h
  | succ fuel ih =>
    rw [walkCycle] at h
    by_cases hc : 1 < (e :: acc).count e
    · rw [if_pos hc] at h
      simp only [Except.ok.injEq] at h
      have he : e ∈ acc := by
        rw [List.count_cons_self] at hc
        have : 0 < acc.count e := by omega
        exact List.count_pos_iff.1 this
      intro x hx
      have hx2 : x ∈ e :: acc := List.mem_of_mem_take (h ▸ hx)
      rcases List.mem_cons.1 hx2 with rfl | hx3
      · exact hacc x he
      · exact hacc x hx3
    · rw [if_neg hc] at h
      match hp : pred e with
      | some (some p) =>
        rw [hp] at h
        refine ih p (e :: acc) ?_ h
        intro a ha
        rcases List.mem_cons.1 ha with rfl | ha2
        · exact ⟨p, hp⟩
        · exact hacc a ha2
      | some none => rw [hp] at h; simp at h
      | none => rw [hp] at h; simp at h

theorem directed_nv_not_target (g : Graph) (nv : Nat) (hg : GWF g)
    (hd : g.directed = true) (hnv : nv ∉ g.nodes) (u : Nat) :
    nv ∉ succTargets (addVirtualEdges g nv) u := by
  intro hmem
  rw [mem_succTargets] at hmem
  obtain ⟨w, hw⟩ := hmem
  by_cases hne : g.nodes = []
  · unfold addVirtualEdges at hw
    rw [if_pos hne] at hw
    exact hnv (hg.tgtMem _ hw)
  · unfold addVirtualEdges at hw
    rw [if_neg hne] at hw
    simp only [hd, if_pos] at hw
    rcases List.mem_append.1 hw with h | h
    · rcases List.mem_append.1 h with h2 | h2
      · exact hnv (hg.tgtMem _ h2)
      · obtain ⟨x, hx, he⟩ := List.mem_map.1 h2
        have hx2 : x = nv := congrArg (fun e => e.2.1) he
        exact hnv (hx2 ▸ hx)
    · simp at h

/-- C9 counterexample: on the undirected graph `gUndirNV` (edges
0—3 weight 0, 2—3 weight −1, 0—4 weight −4, 1—3 weight −3),
`negative_edge_cycle` run with virtual node 5 reports the cycle
[3, 0, 5, 1, 3], which passes through the virtual super-source node:
on an undirected graph the virtual node does acquire incoming edges,
so the claim's justification fails and the virtual node can appear in
the reported cycle. -/
theorem C9_virtual_in_cycle_counterexample :
    (negative_edge_cycle gUndirNV 5).1 =
      .ok (some (-1), some [3, 0, 5, 1, 3], true) ∧
    (5 : Nat) ∈ [3, 0, 5, 1, 3] :=
  ⟨rfl, by decide⟩

/-- C9 amended: for every well-formed directed graph, the cycle node
sequence returned by `negative_edge_cycle` never contains the virtual
super-source node (on a directed graph the virtual node has no
incoming edges, hence never a real predecessor entry, while every node
of the reported cycle has one). -/
theorem C9_virtual_not_in_cycle_directed (g : Graph) (nv : Nat)
    (hg : GWF g) (hd : g.directed = true) (hnv : nv ∉ g.nodes)
    (len : Option Int) (l : List Nat) (flag : Bool)
    (h : (negative_edge_cycle g nv).1 = .ok (len, some l, flag)) :
    nv ∉ l := by
  simp only [negative_edge_cycle] at h
  match hrm : removeNode (addVirtualEdges g nv) nv with
  | .error e =>
    rw [hrm] at h
    simp at h
  | .ok g2 =>
    rw [hrm] at h
    match hb : negative_edge_cycle_body (addVirtualEdges g nv) nv with
    | .error e =>
      rw [hb] at h
      simp at h
    | .ok r =>
      rw [hb] at h
      simp only [Except.ok.injEq] at h
      subst h
      unfold negative_edge_cycle_body at hb
      match ht : bellman_ford_tree (addVirtualEdges g nv) nv with
      | .error e =>
        rw [ht] at hb
        simp only [bind, Except.bind] at hb
        exact absurd hb (by simp)
      | .ok tr =>
        obtain ⟨pr, ds, w⟩ := tr
        rw [ht] at hb
        simp only [bind, Except.bind] at hb
        split at hb
        · rename_i wit
          split at hb
          · exact absurd hb (by simp)
          · rename_i ns hwc
            simp only [pure, Except.pure, Except.ok.injEq, Prod.mk.injEq] at hb
            have hl : ns = l := by
              have h3 := hb.2.1
              injection h3
            subst hl
            have hpr : pr nv = some none := by
              unfold bellman_ford_tree at ht
              by_cases hmem : nv ∈ (addVirtualEdges g nv).nodes
              · rw [if_pos hmem] at ht
                unfold bellman_ford_relaxation at ht
                match hrel : relaxLoop (addVirtualEdges g nv)
                    (addVirtualEdges g nv).nodes.length
                    (loopFuel (addVirtualEdges g nv) [nv])
                    { dist := fupd (fun _ => none) nv (some 0),
                      pred := fupd (fun _ => none) nv (some none),
                      count := fun _ => 0, q := [nv], inq := [nv] } with
                | some (st, w2) =>
                  rw [hrel] at ht
                  simp only [Except.ok.injEq, Prod.mk.injEq] at ht
                  have hfr := relaxLoop_pred_frozen (addVirtualEdges g nv)
                    (addVirtualEdges g nv).nodes.length
                    (loopFuel (addVirtualEdges g nv) [nv]) _ st w2 nv
                    (directed_nv_not_target g nv hg hd hnv) hrel
                  rw [← ht.1, hfr]
                  simp [fupd]
                | none =>
                  rw [hrel] at ht
                  simp at ht
              · rw [if_neg hmem] at ht
                simp at ht
            intro hin
            obtain ⟨y, hy⟩ := walkCycle_ok_mem pr _ wit [] ns
              (by intro a ha; simp at ha) hwc nv hin
            rw [hpr] at hy
            simp at hy
        · simp only [pure, Except.pure, Except.ok.injEq, Prod.mk.injEq] at hb
          exact absurd hb.2.1 (by simp)

/-- Witness for the amended C9 at a concrete input: the directed
negative-cycle test graph with virtual node 99. -/
theorem C9_virtual_not_in_cycle_directed_witness :
    (negative_edge_cycle gNegCycle 99).1 =
      .ok (some (-100), some [3, 2, 3], true) ∧
    99 ∉ [3, 2, 3] :=
  have h : (negative_edge_cycle gNegCycle 99).1 =
      .ok (some (-100), some [3, 2, 3], true) := rfl
  ⟨h, C9_virtual_not_in_cycle_directed gNegCycle 99
    ⟨by decide, by decide, by decide⟩ rfl (by decide)
    (some (-100)) [3, 2, 3] true h⟩

theorem fupd_self {α : Type} (f : Nat → α) (k : Nat) (a : α) :
    fupd f k a k = a := by simp [fupd]

theorem fupd_other {α : Type} (f : Nat → α) (k x : Nat) (a : α) (h : x ≠ k) :
    fupd f k a x = f x := by simp [fupd, h]

theorem improves_true_iff (d : Option Int) (dv : Int) :
    improves d dv = true ↔ d = none ∨ ∃ x, d = some x ∧ dv < x := by
  cases d with
  | none => simp [improves]
  | some x => simp [improves]

theorem improves_false_le (d : Option Int) (dv : Int)
    (h : improves d dv = false) : ∃ x, d = some x ∧ x ≤ dv := by
  cases d with
  | none => simp [improves] at h
  | some x =>
    refine ⟨x, rfl, ?_⟩
    simp [improves] at h
    omega

/-- Transporting a chain-to-queue across a state change that can only
redirect predecessor pointers of nodes lying in the new queue set. -/
theorem chainToInq_transport (stO stN : BF) (x : Nat)
    (hpred : ∀ a b, PredStep stO a b → PredStep stN a b ∨ a ∈ stN.inq)
    (hinq : ∀ m ∈ stO.inq, m ∈ stN.inq)
    (h : ChainToInq stO x) : ChainToInq stN x := by
  obtain ⟨m, hRT, hm⟩ := h
  induction hRT using Relation.ReflTransGen.head_induction_on with
  | refl => exact ⟨m, Relation.ReflTransGen.refl, hinq m hm⟩
  | head hstep _ ih =>
    rcases hpred _ _ hstep with hs | hs
    · obtain ⟨m2, hRT2, hm2⟩ := ih
      exact ⟨m2, Relation.ReflTransGen.head hs hRT2, hm2⟩
    · exact ⟨_, Relation.ReflTransGen.refl, hs⟩

/-- Telescoping a predecessor chain: the weight of a pred-linked list
is bounded by the distance difference of its endpoints. -/
theorem chain_telescope (g : Graph) (st : BF) (l : List Nat) (a b : Nat)
    (da db : Int)
    (hch : List.Chain' (fun x y => st.pred y = some (some x)) l)
    (hh : l.head? = some a) (hl : l.getLast? = some b)
    (hda : st.dist a = some da) (hdb : st.dist b = some db)
    (hF : ∀ x y, st.pred y = some (some x) → ∃ dx dy,
      st.dist x = some dx ∧ st.dist y = some dy ∧
        dx + getWeight g x y ≤ dy) :
    wsum g l ≤ db - da := by
  induction l generalizing a da with
  | nil => simp at hh
  | cons c t ih =>
    obtain rfl : c = a := by simpa using hh
    cases t with
    | nil =>
      obtain rfl : c = b := by simpa using hl
      have hd : da = db := by
        rw [hda] at hdb
        injection hdb
      subst hd
      simp [wsum]
    | cons y t2 =>
      have hpair : st.pred y = some (some c) := (List.chain'_cons.1 hch).1
      obtain ⟨dx, dy, hdx, hdy, hle⟩ := hF c y hpair
      have hdxa : da = dx := by
        rw [hda] at hdx
        injection hdx
      subst hdxa
      have hrec := ih y dy (List.chain'_cons.1 hch).2 rfl (by simpa using hl) hdy
      rw [show wsum g (c :: y :: t2) = getWeight g c y + wsum g (y :: t2) from rfl]
      omega

/-- Strict telescoping: if moreover some node of the list other than
its final entry has, as a predecessor source, a strict bound, the
inequality is strict. -/
theorem chain_telescope_strict (g : Graph) (st : BF) (l : List Nat)
    (a b v : Nat) (da db : Int)
    (hch : List.Chain' (fun x y => st.pred y = some (some x)) l)
    (hh : l.head? = some a) (hl : l.getLast? = some b)
    (hda : st.dist a = some da) (hdb : st.dist b = some db)
    (hF : ∀ x y, st.pred y = some (some x) → ∃ dx dy,
      st.dist x = some dx ∧ st.dist y = some dy ∧
        dx + getWeight g x y ≤ dy)
    (hFs : ∀ y, st.pred y = some (some v) → ∃ dx dy,
      st.dist v = some dx ∧ st.dist y = some dy ∧
        dx + getWeight g v y < dy)
    (hv : v ∈ l.dropLast) :
    wsum g l < db - da := by
  induction l generalizing a da with
  | nil => simp at hh
  | cons c t ih =>
    obtain rfl : c = a := by simpa using hh
    cases t with
    | nil => simp at hv
    | cons y t2 =>
      have hpair : st.pred y = some (some c) := (List.chain'_cons.1 hch).1
      rw [show wsum g (c :: y :: t2) = getWeight g c y + wsum g (y :: t2) from rfl]
      by_cases hvc : v = c
      · subst hvc
        obtain ⟨dx, dy, hdx, hdy, hlt⟩ := hFs y hpair
        have hdxa : da = dx := by
          rw [hda] at hdx
          injection hdx
        subst hdxa
        have hrec := chain_telescope g st (y :: t2) y b dy db
          (List.chain'_cons.1 hch).2 rfl (by simpa using hl) hdy hdb hF
        omega
      · have hvt : v ∈ (y :: t2).dropLast := by
          rw [show (c :: y :: t2).dropLast = c :: (y :: t2).dropLast by simp] at hv
          rcases List.mem_cons.1 hv with h | h
          · exact absurd h hvc
          · exact h
        obtain ⟨dx, dy, hdx, hdy, hle⟩ := hF c y hpair
        have hdxa : da = dx := by
          rw [hda] at hdx
          injection hdx
        subst hdxa
        have hrec := ih y dy (List.chain'_cons.1 hch).2 rfl (by simpa using hl) hdy hvt
        omega

/-- Telescoping along graph edges under relaxedness: the weight of a
walk is at least the distance difference of its endpoints. -/
theorem walk_telescope (g : Graph) (st : BF) (l : List Nat) (a b : Nat)
    (da db : Int)
    (hch : List.Chain' (fun x y => y ∈ succTargets g x) l)
    (hh : l.head? = some a) (hl : l.getLast? = some b)
    (hda : st.dist a = some da) (hdb : st.dist b = some db)
    (hR : ∀ x y, x ∈ l → y ∈ succTargets g x → ∃ dx dy,
      st.dist x = some dx ∧ st.dist y = some dy ∧ dy ≤ dx + getWeight g x y) :
    db - da ≤ wsum g l := by
  induction l generalizing a da with
  | nil => simp at hh
  | cons c t ih =>
    obtain rfl : c = a := by simpa using hh
    cases t with
    | nil =>
      obtain rfl : c = b := by simpa using hl
      have hd : da = db := by
        rw [hda] at hdb
        injection hdb
      subst hd
      simp [wsum]
    | cons y t2 =>
      have hpair : y ∈ succTargets g c := (List.chain'_cons.1 hch).1
      obtain ⟨dx, dy, hdx, hdy, hle⟩ := hR c y (by simp) hpair
      have hdxa : da = dx := by
        rw [hda] at hdx
        injection hdx
      subst hdxa
      have hrec := ih y dy (List.chain'_cons.1 hch).2 rfl (by simpa using hl) hdy
        (fun x2 y2 hx2 hy2 => hR x2 y2 (List.mem_cons_of_mem _ hx2) hy2)
      rw [show wsum g (c :: y :: t2) = getWeight g c y + wsum g (y :: t2) from rfl]
      omega

/-- In a closed list every member also occurs away from the last
position. -/
theorem mem_dropLast_of_closed (l : List Nat) (v : Nat)
    (hlen : 2 ≤ l.length) (hcl : l.head? = l.getLast?) (hv : v ∈ l) :
    v ∈ l.dropLast := by
  cases l with
  | nil => simp at hlen
  | cons a t =>
    cases t with
    | nil => simp at hlen
    | cons b t2 =>
      by_cases hva : v = a
      · subst hva
        simp
      · have hne : (a :: b :: t2) ≠ [] := by simp
        rw [← List.dropLast_append_getLast hne] at hv
        rcases List.mem_append.1 hv with h | h
        · exact h
        · have hvl : v = (a :: b :: t2).getLast hne := by simpa using h
          have hgl : (a :: b :: t2).getLast? =
              some ((a :: b :: t2).getLast hne) :=
            List.getLast?_eq_getLast _ hne
          have ha2 : a = (a :: b :: t2).getLast hne := by
            have h1 : (a :: b :: t2).head? =
                some ((a :: b :: t2).getLast hne) := by
              rw [hcl]
              exact hgl
            simpa using h1
          rw [← ha2] at hvl
          exact absurd hvl hva

theorem chain'_imp_of_tail {R S : Nat → Nat → Prop} :
    ∀ l : List Nat, List.Chain' R l →
      (∀ a b, b ∈ l.tail → R a b → S a b) → List.Chain' S l
  | [], _, _ => List.chain'_nil
  | [_], _, _ => List.chain'_singleton _
  | a :: b :: t, h, himp => by
    rw [List.chain'_cons] at h ⊢
    refine ⟨himp a b (by simp) h.1, ?_⟩
    exact chain'_imp_of_tail (b :: t) h.2
      (fun x y hy hr => himp x y (by simp at hy ⊢; tauto) hr)

theorem nodup_append_singleton (l : List Nat) (v : Nat)
    (hl : l.Nodup) (hv : v ∉ l) : (l ++ [v]).Nodup := by
  rw [List.nodup_append]
  exact ⟨hl, List.nodup_singleton v, by simpa using hv⟩

/-- Head of a pred-cycle together with its stored distance. -/
theorem predCycleL_head_dist (g : Graph) (st : BF) (l : List Nat)
    (hc : PredCycleL st l)
    (hF : ∀ x y, st.pred y = some (some x) → ∃ dx dy,
      st.dist x = some dx ∧ st.dist y = some dy ∧
        dx + getWeight g x y ≤ dy) :
    ∃ c d, l.head? = some c ∧ l.getLast? = some c ∧ st.dist c = some d := by
  obtain ⟨hlen, hcl, hch⟩ := hc
  match l, hlen with
  | c :: y :: t, _ =>
    have hpair : st.pred y = some (some c) := (List.chain'_cons.1 hch).1
    obtain ⟨dc, dy, hdc, _, _⟩ := hF c y hpair
    exact ⟨c, dc, rfl, by rw [← hcl]; rfl, hdc⟩

/-- Preservation of the mid-fold invariant by a relaxation that
updates a node already in the queue. -/
theorem finv_improve_inq (g : Graph) (hg : GWF g) (s u : Nat) (du : Int)
    (done : List (Nat × Int)) (st1 st : BF) (v : Nat) (w : Int)
    (hmem : (v, w) ∈ succList g u)
    (himp : improves (st.dist v) (du + w) = true)
    (hinv : FInv g s u du done st1 st)
    (hvq : v ∈ st.inq) :
    FInv g s u du (done ++ [(v, w)]) st1
      ⟨fupd st.dist v (some (du + w)), fupd st.pred v (some (some u)),
       st.count, st.q, st.inq⟩ := by
  obtain ⟨hvt, hw⟩ := (mem_succList g u (v, w)).1 hmem
  have hw2 : w = getWeight g u v := hw
  have hvnodes : v ∈ g.nodes := succTargets_mem_nodes g hg u v hvt
  have hDv : ∀ x, x ≠ v → fupd st.dist v (some (du + w)) x = st.dist x :=
    fun x hx => fupd_other _ _ _ _ hx
  have hPv : ∀ x, x ≠ v → fupd st.pred v (some (some u)) x = st.pred x :=
    fun x hx => fupd_other _ _ _ _ hx
  have himpS : ∀ d0, st.dist v = some d0 → du + w < d0 := by
    intro d0 hd0
    rcases (improves_true_iff _ _).1 himp with h | ⟨x, hx, hlt⟩
    · rw [h] at hd0
      exact absurd hd0 (by simp)
    · rw [hx] at hd0
      injection hd0 with h2
      omega
  have hDu : ∃ d0, st.dist u = some d0 ∧ d0 ≤ du := by
    by_cases hu : u ∈ st.inq
    · obtain ⟨d, hd, hlt⟩ := hinv.mfIn hu
      exact ⟨d, hd, le_of_lt hlt⟩
    · exact ⟨du, hinv.mfOut hu, le_refl du⟩
  have hself : u = v → w < 0 := by
    intro huv
    obtain ⟨d0, hd0, hle⟩ := hDu
    rw [huv] at hd0
    have := himpS d0 hd0
    omega
  have hfeas : ∀ x y, fupd st.pred v (some (some u)) x = some (some y) →
      ∃ dy dx, fupd st.dist v (some (du + w)) y = some dy ∧
        fupd st.dist v (some (du + w)) x = some dx ∧
        dy + getWeight g y x ≤ dx := by
    intro x y hxy
    by_cases hxv : x = v
    · rw [hxv, fupd_self] at hxy
      injection hxy with h2
      injection h2 with h3
      by_cases huv : u = v
      · have hwv : w = getWeight g v v := by
          rw [hw2, huv]
        refine ⟨du + w, du + w, ?_, ?_, ?_⟩
        · rw [← h3, huv, fupd_self]
        · rw [hxv, fupd_self]
        · rw [hxv, ← h3, huv, ← hwv]
          have := hself huv
          omega
      · obtain ⟨d0, hd0, hle⟩ := hDu
        refine ⟨d0, du + w, ?_, ?_, ?_⟩
        · rw [← h3, hDv u huv]
          exact hd0
        · rw [hxv, fupd_self]
        · rw [hxv, ← h3, ← hw2]
          omega
    · rw [hPv x hxv] at hxy
      obtain ⟨dy, dx, hdy, hdx, hle⟩ := hinv.feas x y hxy
      by_cases hyv : y = v
      · have hlt := himpS dy (hyv ▸ hdy)
        refine ⟨du + w, dx, ?_, ?_, ?_⟩
        · rw [hyv, fupd_self]
        · rw [hDv x hxv]
          exact hdx
        · omega
      · exact ⟨dy, dx, by rw [hDv y hyv]; exact hdy,
          by rw [hDv x hxv]; exact hdx, hle⟩
  have hfeasS : ∀ x y, fupd st.pred v (some (some u)) x = some (some y) →
      y ∈ st.inq →
      ∃ dy dx, fupd st.dist v (some (du + w)) y = some dy ∧
        fupd st.dist v (some (du + w)) x = some dx ∧
        dy + getWeight g y x < dx := by
    intro x y hxy hyq
    by_cases hxv : x = v
    · rw [hxv, fupd_self] at hxy
      injection hxy with h2
      injection h2 with h3
      by_cases huv : u = v
      · have hwv : w = getWeight g v v := by
          rw [hw2, huv]
        refine ⟨du + w, du + w, ?_, ?_, ?_⟩
        · rw [← h3, huv, fupd_self]
        · rw [hxv, fupd_self]
        · rw [hxv, ← h3, huv, ← hwv]
          have := hself huv
          omega
      · obtain ⟨d, hd, hlt⟩ := hinv.mfIn (h3 ▸ hyq)
        refine ⟨d, du + w, ?_, ?_, ?_⟩
        · rw [← h3, hDv u huv]
          exact hd
        · rw [hxv, fupd_self]
        · rw [hxv, ← h3, ← hw2]
          omega
    · rw [hPv x hxv] at hxy
      by_cases hyv : y = v
      · obtain ⟨dy, dx, hdy, hdx, hle⟩ := hinv.feas x y hxy
        have hlt := himpS dy (hyv ▸ hdy)
        refine ⟨du + w, dx, ?_, ?_, ?_⟩
        · rw [hyv, fupd_self]
        · rw [hDv x hxv]
          exact hdx
        · omega
      · obtain ⟨dy, dx, hdy, hdx, hlt⟩ := hinv.feasStrict x y hxy hyq
        exact ⟨dy, dx, by rw [hDv y hyv]; exact hdy,
          by rw [hDv x hxv]; exact hdx, hlt⟩
  refine ⟨hinv.qinq, hinv.qnodup, hinv.inqnodup, ?_, ?_, ?_,
    hinv.countBound, hinv.countNodes, ?_, ?_, hfeas, hfeasS, ?_, ?_, ?_,
    ?_, ?_, ?_, hinv.walkDu, ?_, ?_, ?_, ?_, hinv.inqMono⟩
  · show ∀ x, (fupd st.dist v (some (du + w)) x).isSome ↔
      (fupd st.pred v (some (some u)) x).isSome
    intro x
    by_cases hxv : x = v
    · rw [hxv, fupd_self, fupd_self]
      simp
    · rw [hDv x hxv, hPv x hxv]
      exact hinv.domIff x
  · show ∀ x ∈ st.q, (fupd st.dist v (some (du + w)) x).isSome
    intro x hx
    by_cases hxv : x = v
    · rw [hxv, fupd_self]
      rfl
    · rw [hDv x hxv]
      exact hinv.qdom x hx
  · show ∀ x, (fupd st.dist v (some (du + w)) x).isSome → x ∈ g.nodes
    intro x hx
    by_cases hxv : x = v
    · rw [hxv]
      exact hvnodes
    · rw [hDv x hxv] at hx
      exact hinv.domNodes x hx
  · show ∀ x, fupd st.pred v (some (some u)) x = some none → x = s
    intro x hx
    by_cases hxv : x = v
    · rw [hxv, fupd_self] at hx
      simp at hx
    · rw [hPv x hxv] at hx
      exact hinv.predRoot x hx
  · show ∀ x y, fupd st.pred v (some (some u)) x = some (some y) →
      x ∈ succTargets g y
    intro x y hxy
    by_cases hxv : x = v
    · rw [hxv, fupd_self] at hxy
      injection hxy with h2
      injection h2 with h3
      rw [hxv, ← h3]
      exact hvt
    · rw [hPv x hxv] at hxy
      exact hinv.predEdge x y hxy
  · show ∀ x d, fupd st.dist v (some (du + w)) x = some d →
      ∃ l, IsWalk g s x l ∧ wsum g l = d
    intro x d hx
    by_cases hxv : x = v
    · rw [hxv, fupd_self] at hx
      injection hx with h2
      obtain ⟨l, hwalk, hws⟩ := hinv.walkDu
      refine ⟨l ++ [x], isWalk_extend g s u x l hwalk (hxv ▸ hvt), ?_⟩
      rw [isWalk_wsum_extend g s u x l hwalk, hws, ← h2, hxv, hw2]
    · rw [hDv x hxv] at hx
      exact hinv.walkVal x d hx
  · intro l hc
    obtain ⟨hlen, hcl, hch⟩ := hc
    by_cases hvtail : v ∈ l.tail
    · obtain ⟨c, d, hh, hl2, hdc⟩ := predCycleL_head_dist g _ l ⟨hlen, hcl, hch⟩
        (fun a b h => hfeas b a h)
      have hvl : v ∈ l := List.mem_of_mem_tail hvtail
      have hvdl : v ∈ l.dropLast := mem_dropLast_of_closed l v hlen hcl hvl
      have := chain_telescope_strict g _ l c c v d d hch hh hl2 hdc hdc
        (fun a b h => hfeas b a h) (fun y hy => hfeasS y v hy hvq) hvdl
      omega
    · have hch' : List.Chain' (fun a b => st.pred b = some (some a)) l := by
        refine chain'_imp_of_tail l hch ?_
        intro a b hb hr
        have hbv : b ≠ v := fun h => hvtail (h ▸ hb)
        rw [show (⟨fupd st.dist v (some (du + w)),
          fupd st.pred v (some (some u)), st.count, st.q, st.inq⟩ : BF).pred b =
          fupd st.pred v (some (some u)) b from rfl, hPv b hbv] at hr
        exact hr
      exact hinv.negCyc l ⟨hlen, hcl, hch'⟩
  · show ∀ x, fupd st.pred v (some (some u)) x = some (some x) →
      getWeight g x x < 0
    intro x hx
    by_cases hxv : x = v
    · rw [hxv, fupd_self] at hx
      injection hx with h2
      injection h2 with h3
      have huv : u = v := h3
      have hwv : w = getWeight g v v := by
        rw [hw2, huv]
      rw [hxv, ← hwv]
      exact hself huv
    · rw [hPv x hxv] at hx
      exact hinv.selfLoopNeg x hx
  · show ∃ d, fupd st.dist v (some (du + w)) s = some d ∧ d ≤ 0
    obtain ⟨d, hd, hle⟩ := hinv.distSrc
    by_cases hsv : s = v
    · refine ⟨du + w, by rw [hsv, fupd_self], ?_⟩
      have := himpS d (hsv ▸ hd)
      omega
    · exact ⟨d, by rw [hDv s hsv]; exact hd, hle⟩
  · show u ∉ st.inq → fupd st.dist v (some (du + w)) u = some du
    intro hu
    by_cases huv : u = v
    · exact absurd (huv ▸ hvq) hu
    · rw [hDv u huv]
      exact hinv.mfOut hu
  · show u ∈ st.inq → ∃ d, fupd st.dist v (some (du + w)) u = some d ∧ d < du
    intro hu
    by_cases huv : u = v
    · refine ⟨du + w, by rw [huv, fupd_self], ?_⟩
      have := hself huv
      omega
    · obtain ⟨d, hd, hlt⟩ := hinv.mfIn hu
      exact ⟨d, by rw [hDv u huv]; exact hd, hlt⟩
  · show ∀ p ∈ done ++ [(v, w)], ∃ dv0,
      fupd st.dist v (some (du + w)) p.1 = some dv0 ∧ dv0 ≤ du + p.2
    intro p hp
    rcases List.mem_append.1 hp with hp | hp
    · obtain ⟨dv0, hdv0, hle⟩ := hinv.procRelaxed p hp
      by_cases hpv : p.1 = v
      · have hlt := himpS dv0 (hpv ▸ hdv0)
        refine ⟨du + w, by rw [hpv, fupd_self], ?_⟩
        omega
      · exact ⟨dv0, by rw [hDv p.1 hpv]; exact hdv0, hle⟩
    · have hpv : p = (v, w) := by simpa using hp
      rw [hpv]
      exact ⟨du + w, fupd_self _ _ _, le_refl _⟩
  · show ∀ x d1, st1.dist x = some d1 →
      ∃ d2, fupd st.dist v (some (du + w)) x = some d2 ∧ d2 ≤ d1
    intro x d1 hx
    obtain ⟨d2, hd2, hle⟩ := hinv.distMono x d1 hx
    by_cases hxv : x = v
    · have hlt := himpS d2 (hxv ▸ hd2)
      refine ⟨du + w, by rw [hxv, fupd_self], ?_⟩
      omega
    · exact ⟨d2, by rw [hDv x hxv]; exact hd2, hle⟩
  · show ∀ x, fupd st.dist v (some (du + w)) x ≠ st1.dist x → x ∈ st.inq
    intro x hx
    by_cases hxv : x = v
    · exact hxv ▸ hvq
    · rw [hDv x hxv] at hx
      exact hinv.chgD x hx
  · show ∀ x, fupd st.pred v (some (some u)) x ≠ st1.pred x → x ∈ st.inq
    intro x hx
    by_cases hxv : x = v
    · exact hxv ▸ hvq
    · rw [hPv x hxv] at hx
      exact hinv.chgP x hx

/-- Preservation of the mid-fold invariant by a relaxation that
updates a node not yet in the queue and enqueues it; the count map of
the successor state is abstracted so that both the early-return state
(count unchanged) and the continue state (count bumped below `n`) are
covered. -/
theorem finv_improve_enq (g : Graph) (hg : GWF g) (s u : Nat) (du : Int)
    (done : List (Nat × Int)) (st1 st : BF) (v : Nat) (w : Int)
    (C2 : Nat → Nat)
    (hmem : (v, w) ∈ succList g u)
    (himp : improves (st.dist v) (du + w) = true)
    (hinv : FInv g s u du done st1 st)
    (hvq : v ∉ st.inq)
    (hC2b : ∀ x, C2 x < g.nodes.length)
    (hC2n : ∀ x, x ∉ g.nodes → C2 x = 0) :
    FInv g s u du (done ++ [(v, w)]) st1
      ⟨fupd st.dist v (some (du + w)), fupd st.pred v (some (some u)),
       C2, st.q ++ [v], v :: st.inq⟩ := by
  obtain ⟨hvt, hw⟩ := (mem_succList g u (v, w)).1 hmem
  have hw2 : w = getWeight g u v := hw
  have hvnodes : v ∈ g.nodes := succTargets_mem_nodes g hg u v hvt
  have hDv : ∀ x, x ≠ v → fupd st.dist v (some (du + w)) x = st.dist x :=
    fun x hx => fupd_other _ _ _ _ hx
  have hPv : ∀ x, x ≠ v → fupd st.pred v (some (some u)) x = st.pred x :=
    fun x hx => fupd_other _ _ _ _ hx
  have himpS : ∀ d0, st.dist v = some d0 → du + w < d0 := by
    intro d0 hd0
    rcases (improves_true_iff _ _).1 himp with h | ⟨x, hx, hlt⟩
    · rw [h] at hd0
      exact absurd hd0 (by simp)
    · rw [hx] at hd0
      injection hd0 with h2
      omega
  have hDu : ∃ d0, st.dist u = some d0 ∧ d0 ≤ du := by
    by_cases hu : u ∈ st.inq
    · obtain ⟨d, hd, hlt⟩ := hinv.mfIn hu
      exact ⟨d, hd, le_of_lt hlt⟩
    · exact ⟨du, hinv.mfOut hu, le_refl du⟩
  have hself : u = v → w < 0 := by
    intro huv
    obtain ⟨d0, hd0, hle⟩ := hDu
    rw [huv] at hd0
    have := himpS d0 hd0
    omega
  have hvnq : v ∉ st.q := fun h => hvq ((hinv.qinq v).2 h)
  have hfeas : ∀ x y, fupd st.pred v (some (some u)) x = some (some y) →
      ∃ dy dx, fupd st.dist v (some (du + w)) y = some dy ∧
        fupd st.dist v (some (du + w)) x = some dx ∧
        dy + getWeight g y x ≤ dx := by
    intro x y hxy
    by_cases hxv : x = v
    · rw [hxv, fupd_self] at hxy
      injection hxy with h2
      injection h2 with h3
      by_cases huv : u = v
      · have hwv : w = getWeight g v v := by
          rw [hw2, huv]
        refine ⟨du + w, du + w, ?_, ?_, ?_⟩
        · rw [← h3, huv, fupd_self]
        · rw [hxv, fupd_self]
        · rw [hxv, ← h3, huv, ← hwv]
          have := hself huv
          omega
      · obtain ⟨d0, hd0, hle⟩ := hDu
        refine ⟨d0, du + w, ?_, ?_, ?_⟩
        · rw [← h3, hDv u huv]
          exact hd0
        · rw [hxv, fupd_self]
        · rw [hxv, ← h3, ← hw2]
          omega
    · rw [hPv x hxv] at hxy
      obtain ⟨dy, dx, hdy, hdx, hle⟩ := hinv.feas x y hxy
      by_cases hyv : y = v
      · have hlt := himpS dy (hyv ▸ hdy)
        refine ⟨du + w, dx, ?_, ?_, ?_⟩
        · rw [hyv, fupd_self]
        · rw [hDv x hxv]
          exact hdx
        · omega
      · exact ⟨dy, dx, by rw [hDv y hyv]; exact hdy,
          by rw [hDv x hxv]; exact hdx, hle⟩
  have hfeasS : ∀ x y, fupd st.pred v (some (some u)) x = some (some y) →
      y ∈ v :: st.inq →
      ∃ dy dx, fupd st.dist v (some (du + w)) y = some dy ∧
        fupd st.dist v (some (du + w)) x = some dx ∧
        dy + getWeight g y x < dx := by
    intro x y hxy hyq
    by_cases hxv : x = v
    · rw [hxv, fupd_self] at hxy
      injection hxy with h2
      injection h2 with h3
      by_cases huv : u = v
      · have hwv : w = getWeight g v v := by
          rw [hw2, huv]
        refine ⟨du + w, du + w, ?_, ?_, ?_⟩
        · rw [← h3, huv, fupd_self]
        · rw [hxv, fupd_self]
        · rw [hxv, ← h3, huv, ← hwv]
          have := hself huv
          omega
      · have huq : u ∈ st.inq := by
          rcases List.mem_cons.1 (h3 ▸ hyq) with h | h
          · exact absurd h huv
          · exact h
        obtain ⟨d, hd, hlt⟩ := hinv.mfIn huq
        refine ⟨d, du + w, ?_, ?_, ?_⟩
        · rw [← h3, hDv u huv]
          exact hd
        · rw [hxv, fupd_self]
        · rw [hxv, ← h3, ← hw2]
          omega
    · rw [hPv x hxv] at hxy
      by_cases hyv : y = v
      · obtain ⟨dy, dx, hdy, hdx, hle⟩ := hinv.feas x y hxy
        have hlt := himpS dy (hyv ▸ hdy)
        refine ⟨du + w, dx, ?_, ?_, ?_⟩
        · rw [hyv, fupd_self]
        · rw [hDv x hxv]
          exact hdx
        · omega
      · have hyq' : y ∈ st.inq := by
          rcases List.mem_cons.1 hyq with h | h
          · exact absurd h hyv
          · exact h
        obtain ⟨dy, dx, hdy, hdx, hlt⟩ := hinv.feasStrict x y hxy hyq'
        exact ⟨dy, dx, by rw [hDv y hyv]; exact hdy,
          by rw [hDv x hxv]; exact hdx, hlt⟩
  refine ⟨?_, ?_, ?_, ?_, ?_, ?_, hC2b, hC2n, ?_, ?_, hfeas, hfeasS,
    ?_, ?_, ?_, ?_, ?_, ?_, hinv.walkDu, ?_, ?_, ?_, ?_, ?_⟩
  · show ∀ x, x ∈ v :: st.inq ↔ x ∈ st.q ++ [v]
    intro x
    rw [List.mem_cons, List.mem_append, List.mem_singleton, hinv.qinq x]
    exact or_comm
  · show (st.q ++ [v]).Nodup
    exact nodup_append_singleton st.q v hinv.qnodup hvnq
  · show (v :: st.inq).Nodup
    exact List.nodup_cons.2 ⟨hvq, hinv.inqnodup⟩
  · show ∀ x, (fupd st.dist v (some (du + w)) x).isSome ↔
      (fupd st.pred v (some (some u)) x).isSome
    intro x
    by_cases hxv : x = v
    · rw [hxv, fupd_self, fupd_self]
      simp
    · rw [hDv x hxv, hPv x hxv]
      exact hinv.domIff x
  · show ∀ x ∈ st.q ++ [v], (fupd st.dist v (some (du + w)) x).isSome
    intro x hx
    by_cases hxv : x = v
    · rw [hxv, fupd_self]
      rfl
    · rw [hDv x hxv]
      rcases List.mem_append.1 hx with h | h
      · exact hinv.qdom x h
      · exact absurd (List.mem_singleton.1 h) hxv
  · show ∀ x, (fupd st.dist v (some (du + w)) x).isSome → x ∈ g.nodes
    intro x hx
    by_cases hxv : x = v
    · rw [hxv]
      exact hvnodes
    · rw [hDv x hxv] at hx
      exact hinv.domNodes x hx
  · show ∀ x, fupd st.pred v (some (some u)) x = some none → x = s
    intro x hx
    by_cases hxv : x = v
    · rw [hxv, fupd_self] at hx
      simp at hx
    · rw [hPv x hxv] at hx
      exact hinv.predRoot x hx
  · show ∀ x y, fupd st.pred v (some (some u)) x = some (some y) →
      x ∈ succTargets g y
    intro x y hxy
    by_cases hxv : x = v
    · rw [hxv, fupd_self] at hxy
      injection hxy with h2
      injection h2 with h3
      rw [hxv, ← h3]
      exact hvt
    · rw [hPv x hxv] at hxy
      exact hinv.predEdge x y hxy
  · show ∀ x d, fupd st.dist v (some (du + w)) x = some d →
      ∃ l, IsWalk g s x l ∧ wsum g l = d
    intro x d hx
    by_cases hxv : x = v
    · rw [hxv, fupd_self] at hx
      injection hx with h2
      obtain ⟨l, hwalk, hws⟩ := hinv.walkDu
      refine ⟨l ++ [x], isWalk_extend g s u x l hwalk (hxv ▸ hvt), ?_⟩
      rw [isWalk_wsum_extend g s u x l hwalk, hws, ← h2, hxv, hw2]
    · rw [hDv x hxv] at hx
      exact hinv.walkVal x d hx
  · intro l hc
    obtain ⟨hlen, hcl, hch⟩ := hc
    by_cases hvtail : v ∈ l.tail
    · obtain ⟨c, d, hh, hl2, hdc⟩ := predCycleL_head_dist g _ l ⟨hlen, hcl, hch⟩
        (fun a b h => hfeas b a h)
      have hvl : v ∈ l := List.mem_of_mem_tail hvtail
      have hvdl : v ∈ l.dropLast := mem_dropLast_of_closed l v hlen hcl hvl
      have := chain_telescope_strict g _ l c c v d d hch hh hl2 hdc hdc
        (fun a b h => hfeas b a h)
        (fun y hy => hfeasS y v hy (List.mem_cons_self v st.inq)) hvdl
      omega
    · have hch' : List.Chain' (fun a b => st.pred b = some (some a)) l := by
        refine chain'_imp_of_tail l hch ?_
        intro a b hb hr
        have hbv : b ≠ v := fun h => hvtail (h ▸ hb)
        rw [show (⟨fupd st.dist v (some (du + w)),
          fupd st.pred v (some (some u)), C2, st.q ++ [v], v :: st.inq⟩ : BF).pred b =
          fupd st.pred v (some (some u)) b from rfl, hPv b hbv] at hr
        exact hr
      exact hinv.negCyc l ⟨hlen, hcl, hch'⟩
  · show ∀ x, fupd st.pred v (some (some u)) x = some (some x) →
      getWeight g x x < 0
    intro x hx
    by_cases hxv : x = v
    · rw [hxv, fupd_self] at hx
      injection hx with h2
      injection h2 with h3
      have huv : u = v := h3
      have hwv : w = getWeight g v v := by
        rw [hw2, huv]
      rw [hxv, ← hwv]
      exact hself huv
    · rw [hPv x hxv] at hx
      exact hinv.selfLoopNeg x hx
  · show ∃ d, fupd st.dist v (some (du + w)) s = some d ∧ d ≤ 0
    obtain ⟨d, hd, hle⟩ := hinv.distSrc
    by_cases hsv : s = v
    · refine ⟨du + w, by rw [hsv, fupd_self], ?_⟩
      have := himpS d (hsv ▸ hd)
      omega
    · exact ⟨d, by rw [hDv s hsv]; exact hd, hle⟩
  · show u ∉ v :: st.inq → fupd st.dist v (some (du + w)) u = some du
    intro hu
    have huv : u ≠ v := fun h => hu (h ▸ List.mem_cons_self v st.inq)
    have hu' : u ∉ st.inq := fun h => hu (List.mem_cons_of_mem v h)
    rw [hDv u huv]
    exact hinv.mfOut hu'
  · show u ∈ v :: st.inq → ∃ d, fupd st.dist v (some (du + w)) u = some d ∧ d < du
    intro hu
    by_cases huv : u = v
    · refine ⟨du + w, by rw [huv, fupd_self], ?_⟩
      have := hself huv
      omega
    · have hu' : u ∈ st.inq := by
        rcases List.mem_cons.1 hu with h | h
        · exact absurd h huv
        · exact h
      obtain ⟨d, hd, hlt⟩ := hinv.mfIn hu'
      exact ⟨d, by rw [hDv u huv]; exact hd, hlt⟩
  · show ∀ p ∈ done ++ [(v, w)], ∃ dv0,
      fupd st.dist v (some (du + w)) p.1 = some dv0 ∧ dv0 ≤ du + p.2
    intro p hp
    rcases List.mem_append.1 hp with hp | hp
    · obtain ⟨dv0, hdv0, hle⟩ := hinv.procRelaxed p hp
      by_cases hpv : p.1 = v
      · have hlt := himpS dv0 (hpv ▸ hdv0)
        refine ⟨du + w, by rw [hpv, fupd_self], ?_⟩
        omega
      · exact ⟨dv0, by rw [hDv p.1 hpv]; exact hdv0, hle⟩
    · have hpv : p = (v, w) := by simpa using hp
      rw [hpv]
      exact ⟨du + w, fupd_self _ _ _, le_refl _⟩
  · show ∀ x d1, st1.dist x = some d1 →
      ∃ d2, fupd st.dist v (some (du + w)) x = some d2 ∧ d2 ≤ d1
    intro x d1 hx
    obtain ⟨d2, hd2, hle⟩ := hinv.distMono x d1 hx
    by_cases hxv : x = v
    · have hlt := himpS d2 (hxv ▸ hd2)
      refine ⟨du + w, by rw [hxv, fupd_self], ?_⟩
      omega
    · exact ⟨d2, by rw [hDv x hxv]; exact hd2, hle⟩
  · show ∀ x, fupd st.dist v (some (du + w)) x ≠ st1.dist x → x ∈ v :: st.inq
    intro x hx
    by_cases hxv : x = v
    · exact hxv ▸ List.mem_cons_self v st.inq
    · rw [hDv x hxv] at hx
      exact List.mem_cons_of_mem v (hinv.chgD x hx)
  · show ∀ x, fupd st.pred v (some (some u)) x ≠ st1.pred x → x ∈ v :: st.inq
    intro x hx
    by_cases hxv : x = v
    · exact hxv ▸ List.mem_cons_self v st.inq
    · rw [hPv x hxv] at hx
      exact List.mem_cons_of_mem v (hinv.chgP x hx)
  · show ∀ x ∈ st1.inq, x ∈ v :: st.inq
    intro x hx
    exact List.mem_cons_of_mem v (hinv.inqMono x hx)

/-- Bumping the enqueue count of a listed node decreases the remaining
budget sum by exactly one. -/
theorem sum_sub_fupd_succ (L : List Nat) (f : Nat → Nat) (n v : Nat)
    (hnd : L.Nodup) (hv : v ∈ L) (hlt : f v < n) :
    (L.map fun x => n - fupd f v (f v + 1) x).sum + 1 =
      (L.map fun x => n - f x).sum := by
  induction L with
  | nil => exact absurd hv (by simp)
  | cons a t ih =>
    rw [List.nodup_cons] at hnd
    rcases List.mem_cons.1 hv with rfl | hvt
    · have htail : (t.map fun x => n - fupd f v (f v + 1) x) =
          (t.map fun x => n - f x) := by
        apply List.map_congr_left
        intro x hx
        rw [fupd_other f v x _ (fun h => hnd.1 (h ▸ hx))]
      simp only [List.map_cons, List.sum_cons, htail, fupd_self]
      omega
    · have hav : a ≠ v := fun h => hnd.1 (h ▸ hvt)
      simp only [List.map_cons, List.sum_cons,
        fupd_other f v a _ hav]
      have := ih hnd.2 hvt
      omega

/-- Processing the successor items of `u` preserves the mid-fold
invariant; when the inner loop runs to completion the processed list
grows by exactly the items and the termination measure is unchanged,
and an early return reports `u` itself as the witness. -/
theorem relaxEdges_preserve (g : Graph) (hg : GWF g) (s u : Nat) (du : Int)
    (items : List (Nat × Int)) (done : List (Nat × Int)) (st1 st st' : BF)
    (res : Option Nat)
    (hitems : ∀ p ∈ items, p ∈ succList g u)
    (hinv : FInv g s u du done st1 st)
    (h : relaxEdges g.nodes.length u du items st = (st', res)) :
    ∃ done2, FInv g s u du done2 st1 st' ∧
      (res = none → done2 = done ++ items ∧ measureM g st' = measureM g st) ∧
      (∀ w2, res = some w2 → w2 = u) := by
  induction items generalizing done st with
  | nil =>
    rw [relaxEdges] at h
    injection h with h1 h2
    subst h1
    subst h2
    exact ⟨done, hinv, fun _ => ⟨by simp, rfl⟩, fun w2 hw => by cases hw⟩
  | cons p rest ih =>
    obtain ⟨v, w⟩ := p
    have hmem : (v, w) ∈ succList g u := hitems (v, w) (List.mem_cons_self _ _)
    have hrest : ∀ p ∈ rest, p ∈ succList g u :=
      fun p hp => hitems p (List.mem_cons_of_mem _ hp)
    rw [relaxEdges] at h
    by_cases h1 : improves (st.dist v) (du + w)
    · rw [if_pos h1] at h
      by_cases h2 : v ∈ (v :: st.inq).tail
      · simp only [List.tail_cons] at h2
        rw [if_pos h2] at h
        have hinv2 := finv_improve_inq g hg s u du done st1 st v w hmem h1 hinv h2
        obtain ⟨done2, hF, hnone, hsome⟩ := ih (done ++ [(v, w)]) _ hrest hinv2 h
        refine ⟨done2, hF, fun hr => ?_, hsome⟩
        obtain ⟨hd2, hm⟩ := hnone hr
        exact ⟨by rw [hd2]; simp, hm⟩
      · simp only [List.tail_cons] at h2
        rw [if_neg h2] at h
        by_cases h3 : st.count v + 1 = g.nodes.length
        · rw [if_pos h3] at h
          injection h with h4 h5
          subst h4
          subst h5
          refine ⟨done ++ [(v, w)], ?_, ?_, ?_⟩
          · exact finv_improve_enq g hg s u du done st1 st v w st.count hmem h1
              hinv h2 hinv.countBound hinv.countNodes
          · intro hr
            exact Option.noConfusion hr
          · intro w2 hw
            injection hw with h6
            exact h6.symm
        · rw [if_neg h3] at h
          have hvnodes : v ∈ g.nodes :=
            succTargets_mem_nodes g hg u v ((mem_succList g u (v, w)).1 hmem).1
          have hC2b : ∀ x, fupd st.count v (st.count v + 1) x < g.nodes.length := by
            intro x
            by_cases hx : x = v
            · rw [hx, fupd_self]
              have := hinv.countBound v
              omega
            · rw [fupd_other _ _ _ _ hx]
              exact hinv.countBound x
          have hC2n : ∀ x, x ∉ g.nodes → fupd st.count v (st.count v + 1) x = 0 := by
            intro x hx
            have hxv : x ≠ v := fun hh => hx (hh ▸ hvnodes)
            rw [fupd_other _ _ _ _ hxv]
            exact hinv.countNodes x hx
          have hinv2 := finv_improve_enq g hg s u du done st1 st v w
            (fupd st.count v (st.count v + 1)) hmem h1 hinv h2 hC2b hC2n
          obtain ⟨done2, hF, hnone, hsome⟩ := ih (done ++ [(v, w)]) _ hrest hinv2 h
          refine ⟨done2, hF, fun hr => ?_, hsome⟩
          obtain ⟨hd2, hm⟩ := hnone hr
          refine ⟨by rw [hd2]; simp, ?_⟩
          rw [hm]
          show (st.q ++ [v]).length +
            (g.nodes.map fun x => g.nodes.length -
              fupd st.count v (st.count v + 1) x).sum = measureM g st
          rw [List.length_append]
          have := sum_sub_fupd_succ g.nodes st.count g.nodes.length v
            hg.nodup hvnodes (hinv.countBound v)
          show st.q.length + 1 +
            (g.nodes.map fun x => g.nodes.length -
              fupd st.count v (st.count v + 1) x).sum =
            st.q.length + (g.nodes.map fun x => g.nodes.length - st.count x).sum
          omega
    · rw [if_neg h1] at h
      have h1f : improves (st.dist v) (du + w) = false := by
        cases hb : improves (st.dist v) (du + w) with
        | false => rfl
        | true => exact absurd hb h1
      obtain ⟨x0, hx0, hle0⟩ := improves_false_le _ _ h1f
      have hinv2 : FInv g s u du (done ++ [(v, w)]) st1 st :=
        { hinv with
          procRelaxed := by
            intro p hp
            rcases List.mem_append.1 hp with hp | hp
            · exact hinv.procRelaxed p hp
            · have hpv : p = (v, w) := by simpa using hp
              rw [hpv]
              exact ⟨x0, hx0, hle0⟩ }
      obtain ⟨done2, hF, hnone, hsome⟩ := ih (done ++ [(v, w)]) _ hrest hinv2 h
      refine ⟨done2, hF, fun hr => ?_, hsome⟩
      obtain ⟨hd2, hm⟩ := hnone hr
      exact ⟨by rw [hd2]; simp, hm⟩

/-- A positive skip test yields the queued predecessor. -/
theorem skipTest_eq_true (st : BF) (u : Nat) (h : skipTest st u = true) :
    ∃ p, st.pred u = some (some p) ∧ p ∈ st.inq := by
  have h' : (match st.pred u with
      | some (some p) => decide (p ∈ st.inq)
      | _ => false) = true := h
  cases hpu : st.pred u with
  | none =>
    rw [hpu] at h'
    exact absurd h' (by simp)
  | some o =>
    cases o with
    | none =>
      rw [hpu] at h'
      exact absurd h' (by simp)
    | some p =>
      rw [hpu] at h'
      exact ⟨p, rfl, of_decide_eq_true h'⟩

/-- Popping a node whose skip test is positive preserves the loop
invariant. -/
theorem loopinv_skip (g : Graph) (s : Nat) (st : BF) (u : Nat)
    (rest : List Nat) (hq : st.q = u :: rest) (hL : LoopInv g s st)
    (hskip : skipTest { st with q := rest, inq := st.inq.erase u } u = true) :
    LoopInv g s { st with q := rest, inq := st.inq.erase u } := by
  have huq : u ∈ st.q := by rw [hq]; exact List.mem_cons_self _ _
  have huinq : u ∈ st.inq := (hL.qinq u).2 huq
  have hqn : (u :: rest).Nodup := hq ▸ hL.qnodup
  have hurest : u ∉ rest := (List.nodup_cons.1 hqn).1
  obtain ⟨p, hpu, hpinq⟩ := skipTest_eq_true _ u hskip
  have hpinq' : p ∈ st.inq.erase u := hpinq
  refine ⟨?_, (List.nodup_cons.1 hqn).2, hL.inqnodup.erase u, hL.domIff, ?_,
    hL.domNodes, hL.countBound, hL.countNodes, hL.predRoot, hL.predEdge,
    hL.feas, ?_, hL.walkVal, ?_, hL.negCyc, hL.selfLoopNeg, hL.distSrc⟩
  · intro x
    show x ∈ st.inq.erase u ↔ x ∈ rest
    by_cases hxu : x = u
    · subst hxu
      constructor
      · intro hmem
        exact absurd hmem (hL.inqnodup.not_mem_erase)
      · intro hmem
        exact absurd hmem hurest
    · rw [List.mem_erase_of_ne hxu, hL.qinq x, hq, List.mem_cons]
      constructor
      · rintro (h | h)
        · exact absurd h hxu
        · exact h
      · exact fun h => Or.inr h
  · intro x hx
    exact hL.qdom x (by rw [hq]; exact List.mem_cons_of_mem _ hx)
  · intro x y hxy hy
    exact hL.feasStrict x y hxy (List.mem_of_mem_erase hy)
  · intro x hx
    rcases hL.relaxedOr x hx with hrel | hcti
    · exact Or.inl hrel
    · obtain ⟨m, hRT, hm⟩ := hcti
      right
      by_cases hmu : m = u
      · subst hmu
        refine ⟨p, Relation.ReflTransGen.tail hRT hpu, hpinq'⟩
      · exact ⟨m, hRT, (List.mem_erase_of_ne hmu).2 hm⟩

/-- The mid-fold invariant holds at fold start for the freshly popped
node. -/
theorem finv_start (g : Graph) (s : Nat) (st : BF) (u : Nat)
    (rest : List Nat) (du : Int) (hq : st.q = u :: rest)
    (hL : LoopInv g s st) (hdu : st.dist u = some du) :
    FInv g s u du [] { st with q := rest, inq := st.inq.erase u }
      { st with q := rest, inq := st.inq.erase u } := by
  have hqn : (u :: rest).Nodup := hq ▸ hL.qnodup
  have hurest : u ∉ rest := (List.nodup_cons.1 hqn).1
  refine ⟨?_, (List.nodup_cons.1 hqn).2, hL.inqnodup.erase u, hL.domIff, ?_,
    hL.domNodes, hL.countBound, hL.countNodes, hL.predRoot, hL.predEdge,
    hL.feas, ?_, hL.walkVal, hL.negCyc, hL.selfLoopNeg, hL.distSrc,
    fun _ => hdu, ?_, hL.walkVal u du hdu, ?_, ?_, ?_, ?_, fun x hx => hx⟩
  · intro x
    show x ∈ st.inq.erase u ↔ x ∈ rest
    by_cases hxu : x = u
    · subst hxu
      constructor
      · intro hmem
        exact absurd hmem (hL.inqnodup.not_mem_erase)
      · intro hmem
        exact absurd hmem hurest
    · rw [List.mem_erase_of_ne hxu, hL.qinq x, hq, List.mem_cons]
      constructor
      · rintro (h | h)
        · exact absurd h hxu
        · exact h
      · exact fun h => Or.inr h
  · intro x hx
    exact hL.qdom x (by rw [hq]; exact List.mem_cons_of_mem _ hx)
  · intro x y hxy hy
    exact hL.feasStrict x y hxy (List.mem_of_mem_erase hy)
  · intro hu
    exact absurd hu (hL.inqnodup.not_mem_erase)
  · intro p hp
    exact absurd hp (by simp)
  · intro x d1 hx
    exact ⟨d1, hx, le_refl d1⟩
  · intro x hx
    exact absurd rfl hx
  · intro x hx
    exact absurd rfl hx

/-- Repairing a predecessor chain to the queue across the processing of
`u`: either the chain survives (possibly cut at a changed node) or it
reached `u` itself. -/
theorem chainToInq_repair (st0 stF : BF) (u : Nat)
    (hinq : ∀ m, m ∈ st0.inq → m ≠ u → m ∈ stF.inq)
    (hchg : ∀ x, stF.pred x ≠ st0.pred x → x ∈ stF.inq)
    (hstrict : ∀ x, st0.pred x = some (some u) → stF.pred x = st0.pred x →
      x ∈ stF.inq)
    (x m : Nat) (hRT : Relation.ReflTransGen (PredStep st0) x m)
    (hm : m ∈ st0.inq) :
    ChainToInq stF x ∨ x = u := by
  induction hRT using Relation.ReflTransGen.head_induction_on with
  | refl =>
    by_cases hmu : m = u
    · exact Or.inr hmu
    · exact Or.inl ⟨m, Relation.ReflTransGen.refl, hinq m hm hmu⟩
  | head hstep hRT2 ih =>
    rename_i a c
    by_cases hchga : stF.pred a = st0.pred a
    · have hstepF : PredStep stF a c := by
        show stF.pred a = some (some c)
        rw [hchga]
        exact hstep
      rcases ih with hci | hcu
      · obtain ⟨m2, hRT2', hm2⟩ := hci
        exact Or.inl ⟨m2, Relation.ReflTransGen.head hstepF hRT2', hm2⟩
      · have ha := hstrict a (hcu ▸ hstep) hchga
        exact Or.inl ⟨a, Relation.ReflTransGen.refl, ha⟩
    · exact Or.inl ⟨a, Relation.ReflTransGen.refl, hchg a hchga⟩

/-- Completing the inner fold over all successors of `u` restores the
full loop invariant. -/
theorem loopinv_repair (g : Graph) (s : Nat) (st0 : BF) (u : Nat)
    (rest : List Nat) (du : Int) (stF : BF)
    (hq : st0.q = u :: rest) (hL : LoopInv g s st0)
    (hdu : st0.dist u = some du)
    (hF : FInv g s u du (succList g u)
      { st0 with q := rest, inq := st0.inq.erase u } stF) :
    LoopInv g s stF := by
  have huinq : u ∈ st0.inq := (hL.qinq u).2 (by rw [hq]; exact List.mem_cons_self _ _)
  have hstrict : ∀ x, st0.pred x = some (some u) → stF.pred x = st0.pred x →
      x ∈ stF.inq := by
    intro x hpx hkeep
    by_cases hchgd : stF.dist x =
        ({ st0 with q := rest, inq := st0.inq.erase u } : BF).dist x
    · obtain ⟨dy, dx, hdy, hdx, hlt⟩ := hL.feasStrict x u hpx huinq
      rw [hdu] at hdy
      injection hdy with hdy'
      subst hdy'
      have hxs : x ∈ succTargets g u := hL.predEdge x u hpx
      have hmem : (x, getWeight g u x) ∈ succList g u :=
        (mem_succList g u (x, getWeight g u x)).2 ⟨hxs, rfl⟩
      obtain ⟨dv2, hdv2, hle2⟩ := hF.procRelaxed (x, getWeight g u x) hmem
      rw [hchgd] at hdv2
      have : ({ st0 with q := rest, inq := st0.inq.erase u } : BF).dist x =
          st0.dist x := rfl
      rw [this, hdx] at hdv2
      injection hdv2 with hdv2'
      omega
    · exact hF.chgD x hchgd
  have hinq : ∀ m, m ∈ st0.inq → m ≠ u → m ∈ stF.inq := by
    intro m hm hmu
    exact hF.inqMono m ((List.mem_erase_of_ne hmu).2 hm)
  refine ⟨hF.qinq, hF.qnodup, hF.inqnodup, hF.domIff, hF.qdom, hF.domNodes,
    hF.countBound, hF.countNodes, hF.predRoot, hF.predEdge, hF.feas,
    hF.feasStrict, hF.walkVal, ?_, hF.negCyc, hF.selfLoopNeg, hF.distSrc⟩
  intro x hx
  by_cases hchgd : stF.dist x =
      ({ st0 with q := rest, inq := st0.inq.erase u } : BF).dist x
  · have hchgd0 : stF.dist x = st0.dist x := hchgd
    by_cases hxu : x = u
    · subst hxu
      by_cases hxq : x ∈ stF.inq
      · exact Or.inr ⟨x, Relation.ReflTransGen.refl, hxq⟩
      · left
        intro p hp
        obtain ⟨dv, hdv, hle⟩ := hF.procRelaxed p hp
        exact ⟨du, dv, hF.mfOut hxq, hdv, hle⟩
    · have hx0 : (st0.dist x).isSome := by rw [← hchgd0]; exact hx
      rcases hL.relaxedOr x hx0 with hrel | hcti
      · left
        intro p hp
        obtain ⟨dx, dv, hdx, hdv, hle⟩ := hrel p hp
        obtain ⟨d2, hd2, hle2⟩ := hF.distMono p.1 dv hdv
        refine ⟨dx, d2, by rw [hchgd0]; exact hdx, hd2, by omega⟩
      · obtain ⟨m, hRT, hm⟩ := hcti
        rcases chainToInq_repair st0 stF u hinq (fun y hy => hF.chgP y hy)
          hstrict x m hRT hm with hc | hxu2
        · exact Or.inr hc
        · exact absurd hxu2 hxu
  · exact Or.inr ⟨x, Relation.ReflTransGen.refl, hF.chgD x hchgd⟩

/-- Running the relaxation loop from a state satisfying the loop
invariant: on normal exit the queue is empty and the invariant holds;
in every case the returned state keeps the structural invariants needed
downstream (negative predecessor cycles, self-loop characterisation,
walk-valued distances, domain facts). -/
theorem relaxLoop_preserve (g : Graph) (hg : GWF g) (s : Nat) (fuel : Nat)
    (st st' : BF) (w : Option Nat)
    (hL : LoopInv g s st)
    (h : relaxLoop g g.nodes.length fuel st = some (st', w)) :
    (w = none → st'.q = [] ∧ LoopInv g s st') ∧
    (∀ l, PredCycleL st' l → wsum g l < 0) ∧
    (∀ v, st'.pred v = some (some v) → getWeight g v v < 0) ∧
    (∀ x y, st'.pred x = some (some y) → x ∈ succTargets g y) ∧
    (∀ x d, st'.dist x = some d → ∃ l, IsWalk g s x l ∧ wsum g l = d) ∧
    (∀ x, (st'.dist x).isSome ↔ (st'.pred x).isSome) ∧
    (∀ x, (st'.dist x).isSome → x ∈ g.nodes) ∧
    (∃ d, st'.dist s = some d ∧ d ≤ 0) ∧
    (∀ w2, w = some w2 → (st'.dist w2).isSome) := by
  induction fuel generalizing st with
  | zero =>
    rw [relaxLoop_zero] at h
    exact absurd h (by simp)
  | succ fuel ih =>
    match hq : st.q with
    | [] =>
      rw [relaxLoop_succ_nil g g.nodes.length fuel st hq] at h
      simp only [Option.some.injEq, Prod.mk.injEq] at h
      obtain ⟨h1, h2⟩ := h
      subst h1
      subst h2
      refine ⟨fun _ => ⟨hq, hL⟩, hL.negCyc, hL.selfLoopNeg, hL.predEdge,
        hL.walkVal, hL.domIff, hL.domNodes, hL.distSrc, ?_⟩
      intro w2 hw2
      exact absurd hw2 (by simp)
    | u :: rest =>
      rw [relaxLoop_succ_cons g g.nodes.length fuel st u rest hq] at h
      by_cases hskip : skipTest { st with q := rest, inq := st.inq.erase u } u
      · rw [if_pos hskip] at h
        exact ih _ (loopinv_skip g s st u rest hq hL hskip) h
      · rw [if_neg hskip] at h
        have huq : u ∈ st.q := by rw [hq]; exact List.mem_cons_self _ _
        obtain ⟨du, hdu⟩ := Option.isSome_iff_exists.1 (hL.qdom u huq)
        have hgetd : ((({ st with q := rest, inq := st.inq.erase u } : BF).dist u).getD 0) = du := by
          show (st.dist u).getD 0 = du
          rw [hdu]
          rfl
        rw [hgetd] at h
        have hstart := finv_start g s st u rest du hq hL hdu
        cases hE : relaxEdges g.nodes.length u du (succList g u)
            { st with q := rest, inq := st.inq.erase u } with
        | mk st2 res =>
          rw [hE] at h
          obtain ⟨done2, hF, hnone, hsome⟩ := relaxEdges_preserve g hg s u du
            (succList g u) [] _ _ st2 res (fun p hp => hp) hstart hE
          cases res with
          | some w2 =>
            simp only [Option.some.injEq, Prod.mk.injEq] at h
            obtain ⟨h1, h2⟩ := h
            subst h1
            subst h2
            have hw2u : w2 = u := hsome w2 rfl
            have hdistu : (st2.dist u).isSome := by
              by_cases hu2 : u ∈ st2.inq
              · obtain ⟨d, hd, _⟩ := hF.mfIn hu2
                rw [hd]
                rfl
              · rw [hF.mfOut hu2]
                rfl
            refine ⟨fun hww => absurd hww (by simp), hF.negCyc, hF.selfLoopNeg,
              hF.predEdge, hF.walkVal, hF.domIff, hF.domNodes, hF.distSrc, ?_⟩
            intro w3 hw3
            injection hw3 with hw3'
            subst hw3'
            rw [hw2u]
            exact hdistu
          | none =>
            obtain ⟨hdone2, _⟩ := hnone rfl
            subst hdone2
            have hLF : LoopInv g s st2 := loopinv_repair g s st u rest du st2 hq hL hdu
              (by simpa using hF)
            exact ih _ hLF h

/-- The relaxation loop never exhausts fuel exceeding its measure. -/
theorem relaxLoop_total (g : Graph) (hg : GWF g) (s : Nat) (fuel : Nat)
    (st : BF) (hL : LoopInv g s st) (hfuel : measureM g st < fuel) :
    ∃ r, relaxLoop g g.nodes.length fuel st = some r := by
  induction fuel generalizing st with
  | zero => omega
  | succ fuel ih =>
    match hq : st.q with
    | [] => exact ⟨(st, none), relaxLoop_succ_nil g g.nodes.length fuel st hq⟩
    | u :: rest =>
      have hms : measureM g { st with q := rest, inq := st.inq.erase u } + 1 =
          measureM g st := by
        show rest.length + (g.nodes.map fun v => g.nodes.length - st.count v).sum
          + 1 = st.q.length + (g.nodes.map fun v => g.nodes.length - st.count v).sum
        rw [hq]
        simp [List.length_cons]
        omega
      rw [relaxLoop_succ_cons g g.nodes.length fuel st u rest hq]
      by_cases hskip : skipTest { st with q := rest, inq := st.inq.erase u } u
      · rw [if_pos hskip]
        exact ih _ (loopinv_skip g s st u rest hq hL hskip) (by omega)
      · rw [if_neg hskip]
        have huq : u ∈ st.q := by rw [hq]; exact List.mem_cons_self _ _
        obtain ⟨du, hdu⟩ := Option.isSome_iff_exists.1 (hL.qdom u huq)
        have hgetd : ((({ st with q := rest, inq := st.inq.erase u } : BF).dist u).getD 0) = du := by
          show (st.dist u).getD 0 = du
          rw [hdu]
          rfl
        rw [hgetd]
        have hstart := finv_start g s st u rest du hq hL hdu
        cases hE : relaxEdges g.nodes.length u du (succList g u)
            { st with q := rest, inq := st.inq.erase u } with
        | mk st2 res =>
          obtain ⟨done2, hF, hnone, hsome⟩ := relaxEdges_preserve g hg s u du
            (succList g u) [] _ _ st2 res (fun p hp => hp) hstart hE
          cases res with
          | some w2 => exact ⟨(st2, some w2), rfl⟩
          | none =>
            obtain ⟨hdone2, hmeq⟩ := hnone rfl
            subst hdone2
            have hLF : LoopInv g s st2 := loopinv_repair g s st u rest du st2 hq
              hL hdu (by simpa using hF)
            exact ih st2 hLF (by omega)

/-- The initial state of the single-source run satisfies the loop
invariant. -/
theorem loopinv_init (g : Graph) (hg : GWF g) (s : Nat) (hs : s ∈ g.nodes) :
    LoopInv g s (⟨fupd (fun _ => none) s (some 0),
      fupd (fun _ => none) s (some none), fun _ => 0, [s], [s]⟩ : BF) := by
  have hpredshape : ∀ (x y : Nat), fupd (fun _ => (none : Option (Option Nat))) s
      (some none) x = some (some y) → False := by
    intro x y hxy
    by_cases hx : x = s
    · rw [hx, fupd_self] at hxy
      simp at hxy
    · rw [fupd_other _ _ _ _ hx] at hxy
      simp at hxy
  refine ⟨fun x => Iff.rfl, by simp, by simp, ?_, ?_, ?_, ?_, fun _ _ => rfl,
    ?_, ?_, ?_, ?_, ?_, ?_, ?_, ?_, ?_⟩
  · intro x
    show (fupd (fun _ => (none : Option Int)) s (some 0) x).isSome ↔
      (fupd (fun _ => (none : Option (Option Nat))) s (some none) x).isSome
    by_cases hx : x = s
    · rw [hx, fupd_self, fupd_self]
      simp
    · rw [fupd_other _ _ _ _ hx, fupd_other _ _ _ _ hx]
      simp
  · intro x hx
    have hxs : x = s := by simpa using hx
    show (fupd (fun _ => (none : Option Int)) s (some 0) x).isSome
    rw [hxs, fupd_self]
    rfl
  · intro x hx
    have hx' : (fupd (fun _ => (none : Option Int)) s (some 0) x).isSome := hx
    by_cases hxs : x = s
    · rw [hxs]
      exact hs
    · rw [fupd_other _ _ _ _ hxs] at hx'
      exact absurd hx' (by simp)
  · intro x
    show 0 < g.nodes.length
    exact List.length_pos.2 (List.ne_nil_of_mem hs)
  · intro x hx
    have hx' : fupd (fun _ => (none : Option (Option Nat))) s (some none) x =
      some none := hx
    by_cases hxs : x = s
    · exact hxs
    · rw [fupd_other _ _ _ _ hxs] at hx'
      exact absurd hx' (by simp)
  · intro x y hxy
    exact absurd hxy (fun hh => hpredshape x y hh)
  · intro x y hxy
    exact absurd hxy (fun hh => hpredshape x y hh)
  · intro x y hxy hy
    exact absurd hxy (fun hh => hpredshape x y hh)
  · intro x d hx
    have hx' : fupd (fun _ => (none : Option Int)) s (some 0) x = some d := hx
    by_cases hxs : x = s
    · subst hxs
      rw [fupd_self] at hx'
      injection hx' with hx2
      exact ⟨[x], isWalk_single g x, by rw [← hx2]; rfl⟩
    · rw [fupd_other _ _ _ _ hxs] at hx'
      exact absurd hx' (by simp)
  · intro x hx
    right
    have hx' : (fupd (fun _ => (none : Option Int)) s (some 0) x).isSome := hx
    by_cases hxs : x = s
    · exact ⟨x, Relation.ReflTransGen.refl,
        by rw [hxs]; exact List.mem_singleton_self s⟩
    · rw [fupd_other _ _ _ _ hxs] at hx'
      exact absurd hx' (by simp)
  · intro l hc
    obtain ⟨hlen, _, hch⟩ := hc
    match l, hlen with
    | a :: b :: t, _ =>
      have hpair := (List.chain'_cons.1 hch).1
      exact absurd hpair (fun hh => hpredshape b a hh)
  · intro x hx
    exact absurd hx (fun hh => hpredshape x x hh)
  · refine ⟨0, ?_, le_refl 0⟩
    show fupd (fun _ => (none : Option Int)) s (some 0) s = some 0
    exact fupd_self _ _ _

/-- `bellman_ford_tree` on a member source always completes the
relaxation: the loop fuel covers the measure. -/
theorem bellman_ford_tree_some (g : Graph) (hg : GWF g) (s : Nat)
    (hs : s ∈ g.nodes) :
    ∃ st w, bellman_ford_relaxation g (fupd (fun _ => none) s (some none))
        (fupd (fun _ => none) s (some 0)) [s] = some (st, w) ∧
      bellman_ford_tree g s = .ok (st.pred, st.dist, w) := by
  have hL := loopinv_init g hg s hs
  have hmeas : measureM g (⟨fupd (fun _ => none) s (some 0),
      fupd (fun _ => none) s (some none), fun _ => 0, [s], [s]⟩ : BF) < loopFuel g [s] := by
    show 1 + (g.nodes.map fun v => g.nodes.length - 0).sum <
      g.nodes.length * g.nodes.length + 1 + 1
    have : (g.nodes.map fun v => g.nodes.length - 0).sum =
        g.nodes.length * g.nodes.length := by
      have h1 : (g.nodes.map fun v => g.nodes.length - 0) =
          List.replicate g.nodes.length g.nodes.length := by
        rw [List.map_const']
        simp
      rw [h1, List.sum_replicate, smul_eq_mul]
    omega
  obtain ⟨r, hr⟩ := relaxLoop_total g hg s (loopFuel g [s]) _ hL hmeas
  obtain ⟨st, w⟩ := r
  refine ⟨st, w, hr, ?_⟩
  rw [bellman_ford_tree, if_pos hs]
  rw [show bellman_ford_relaxation g (fupd (fun _ => none) s (some none))
    (fupd (fun _ => none) s (some 0)) [s] =
    relaxLoop g g.nodes.length (loopFuel g [s])
      (⟨fupd (fun _ => none) s (some 0),
        fupd (fun _ => none) s (some none), fun _ => 0, [s], [s]⟩ : BF) from rfl, hr]

/-- A successful predecessor walk returns a closed chain of the
predecessor map: at least two entries, equal first and last node, and
consecutive predecessor links. -/
theorem walkCycle_ok_pcl (pred : Nat → Option (Option Nat)) (fuel : Nat)
    (e : Nat) (acc : List Nat) (l : List Nat)
    (hch : List.Chain' (fun a b => pred b = some (some a)) (e :: acc))
    (h : walkCycle pred fuel e acc = .ok l) :
    2 ≤ l.length ∧ l.head? = l.getLast? ∧
      List.Chain' (fun a b => pred b = some (some a)) l := by
  induction fuel generalizing e acc with
  | zero => simp [walkCycle] at h
  | succ fuel ih =>
    rw [walkCycle] at h
    by_cases hc : 1 < (e :: acc).count e
    · rw [if_pos hc] at h
      simp only [Except.ok.injEq] at h
      have he : e ∈ acc := by
        rw [List.count_cons_self] at hc
        have h0 : 0 < acc.count e := by omega
        exact List.count_pos_iff.1 h0
      have hk : acc.indexOf e < acc.length := List.indexOf_lt_length.2 he
      subst h
      have htake : (e :: acc).take (acc.indexOf e + 2) =
          e :: acc.take (acc.indexOf e + 1) := List.take_succ_cons
      have hgete : acc[acc.indexOf e] = e := List.getElem_indexOf hk
      have htake2 : acc.take (acc.indexOf e + 1) =
          acc.take (acc.indexOf e) ++ [e] := by
        rw [List.take_succ, List.getElem?_eq_getElem hk, hgete]
        rfl
      refine ⟨?_, ?_, ?_⟩
      · rw [List.length_take, List.length_cons]
        have : min (acc.indexOf e + 2) (acc.length + 1) = acc.indexOf e + 2 :=
          Nat.min_eq_left (by omega)
        omega
      · rw [htake, htake2]
        rw [show (e :: (acc.take (acc.indexOf e) ++ [e])) =
          (e :: acc.take (acc.indexOf e)) ++ [e] from rfl]
        rw [List.getLast?_concat]
        rfl
      · exact List.Chain'.take hch (acc.indexOf e + 2)
    · rw [if_neg hc] at h
      match hp : pred e with
      | some (some p) =>
        rw [hp] at h
        refine ih p (e :: acc) ?_ h
        rw [List.chain'_cons]
        exact ⟨hp, hch⟩
      | some none => rw [hp] at h; simp at h
      | none => rw [hp] at h; simp at h

/-- C3: whenever the relaxation engine returns a non-none cycle
witness, the node sequence produced by the predecessor-walk extractor
(for any fuel, covering the calls in `bellman_ford` and
`negative_edge_cycle`) starts and ends with the same node and the sum
of the resolved edge weights along its consecutive pairs is strictly
negative. -/
theorem C3_cycle_negative (g : Graph) (hg : GWF g) (s : Nat) (hs : s ∈ g.nodes)
    (pr : Nat → Option (Option Nat)) (di : Nat → Option Int) (w2 : Nat)
    (hrun : bellman_ford_tree g s = .ok (pr, di, some w2))
    (fuel : Nat) (l : List Nat)
    (hwalk : walkCycle pr fuel w2 [] = .ok l) :
    l.head? = l.getLast? ∧ wsum g l < 0 := by
  obtain ⟨st, w, hrel, hok⟩ := bellman_ford_tree_some g hg s hs
  rw [hok] at hrun
  simp only [Except.ok.injEq, Prod.mk.injEq] at hrun
  obtain ⟨h1, h2, h3⟩ := hrun
  have hpre := relaxLoop_preserve g hg s (loopFuel g [s]) _ st w
    (loopinv_init g hg s hs) hrel
  obtain ⟨-, hnegCyc, -⟩ := hpre
  rw [← h1] at hwalk
  obtain ⟨hlen, hhl, hch⟩ := walkCycle_ok_pcl st.pred fuel w2 [] l
    (List.chain'_singleton w2) hwalk
  exact ⟨hhl, hnegCyc l ⟨hlen, hhl, hch⟩⟩

/-- Witness for C3 at a concrete input: the negative-cycle test graph,
source 1; the run returns a witness and the extracted sequence is a
closed strictly negative cycle. -/
theorem C3_cycle_negative_witness :
    ∃ (pr : Nat → Option (Option Nat)) (di : Nat → Option Int) (w2 : Nat)
      (l : List Nat),
      bellman_ford_tree gNegCycle 1 = .ok (pr, di, some w2) ∧
      walkCycle pr 7 w2 [] = .ok l ∧
      (l.head? = l.getLast? ∧ wsum gNegCycle l < 0) := by
  refine ⟨_, _, _, _, rfl, rfl, ?_⟩
  exact C3_cycle_negative gNegCycle ⟨by decide, by decide, by decide⟩ 1
    (by decide) _ _ _ rfl 7 _ rfl

/-- C8 amended: the predecessor map returned by `bellman_ford_tree`
assigns a node as its own predecessor only when that node carries a
negative resolved self-loop weight. -/
theorem C8_pred_self_amended (g : Graph) (hg : GWF g) (s : Nat)
    (hs : s ∈ g.nodes)
    (pr : Nat → Option (Option Nat)) (di : Nat → Option Int) (w : Option Nat)
    (hrun : bellman_ford_tree g s = .ok (pr, di, w))
    (v : Nat) (hv : pr v = some (some v)) :
    getWeight g v v < 0 := by
  obtain ⟨st, w0, hrel, hok⟩ := bellman_ford_tree_some g hg s hs
  rw [hok] at hrun
  simp only [Except.ok.injEq, Prod.mk.injEq] at hrun
  obtain ⟨h1, h2, h3⟩ := hrun
  have hpre := relaxLoop_preserve g hg s (loopFuel g [s]) _ st w0
    (loopinv_init g hg s hs) hrel
  obtain ⟨-, -, hself, -⟩ := hpre
  rw [← h1] at hv
  exact hself v hv

/-- Witness for the amended C8 at a concrete input: the single node 0
with a self-loop of weight -1 becomes its own predecessor, and its
resolved self-loop weight is negative. -/
theorem C8_pred_self_amended_witness :
    ∃ (pr : Nat → Option (Option Nat)) (di : Nat → Option Int) (w : Option Nat),
      bellman_ford_tree gSelfLoop 0 = .ok (pr, di, w) ∧
      pr 0 = some (some 0) ∧ getWeight gSelfLoop 0 0 < 0 := by
  refine ⟨_, _, _, rfl, rfl, ?_⟩
  exact C8_pred_self_amended gSelfLoop ⟨by decide, by decide, by decide⟩ 0
    (by decide) _ _ _ rfl 0 rfl

/-- C2: when a negative-weight simple cycle is reachable from the
source, `bellman_ford_tree` terminates and returns a non-none cycle
witness. -/
theorem C2_negative_cycle_detected (g : Graph) (hg : GWF g) (s : Nat)
    (hs : s ∈ g.nodes) (c : List Nat) (hc : IsCycle g c)
    (hreach : ∀ x ∈ c, Reach g s x) (hneg : wsum g c < 0) :
    ∃ pr di w2, bellman_ford_tree g s = .ok (pr, di, some w2) := by
  obtain ⟨st, w0, hrel, hok⟩ := bellman_ford_tree_some g hg s hs
  cases w0 with
  | some w2 => exact ⟨st.pred, st.dist, w2, hok⟩
  | none =>
    exfalso
    have hpre := relaxLoop_preserve g hg s (loopFuel g [s]) _ st none
      (loopinv_init g hg s hs) hrel
    obtain ⟨hexit, -⟩ := hpre
    obtain ⟨hq, hL⟩ := hexit rfl
    have hinqE : ∀ x, x ∉ st.inq := by
      intro x hx
      have := (hL.qinq x).1 hx
      rw [hq] at this
      exact absurd this (by simp)
    have hrelall : ∀ x, (st.dist x).isSome → EdgesRelaxed g st x := by
      intro x hx
      rcases hL.relaxedOr x hx with hrel2 | hcti
      · exact hrel2
      · obtain ⟨m, _, hm⟩ := hcti
        exact absurd hm (hinqE m)
    have hsrc : (st.dist s).isSome := by
      obtain ⟨d, hd, _⟩ := hL.distSrc
      rw [hd]
      rfl
    have hdom : ∀ l x, IsWalk g s x l → (st.dist x).isSome := by
      intro l
      induction l using List.reverseRecOn with
      | nil =>
        intro x hw
        exact absurd hw.1 (by simp)
      | append_singleton l2 a ihl =>
        intro x hw
        obtain ⟨hh, hl, hch⟩ := hw
        have hax : a = x := by
          rw [List.getLast?_concat] at hl
          injection hl
        subst hax
        cases l2 with
        | nil =>
          have has : a = s := by simpa using hh
          rw [has]
          exact hsrc
        | cons b t =>
          have hyl : (b :: t).getLast? = some ((b :: t).getLast (by simp)) :=
            List.getLast?_eq_getLast _ (by simp)
          obtain ⟨hch1, hch2, hlink⟩ := List.chain'_append.1 hch
          have hprev : (st.dist ((b :: t).getLast (by simp))).isSome := by
            refine ihl ((b :: t).getLast (by simp)) ⟨?_, hyl, hch1⟩
            rw [List.head?_append_of_ne_nil] at hh
            · exact hh
            · simp
          have hstep : a ∈ succTargets g ((b :: t).getLast (by simp)) :=
            hlink _ (by rw [hyl]; rfl) a rfl
          have hErel := hrelall _ hprev
          obtain ⟨dx, dv, hdx, hdv, _⟩ := hErel (a, getWeight g _ a)
            ((mem_succList g _ (a, getWeight g _ a)).2 ⟨hstep, rfl⟩)
          rw [hdv]
          rfl
    obtain ⟨hlen, hhl, htnd, hch⟩ := hc
    match hcl : c, hlen with
    | a :: c2, _ =>
      have hha : (a :: c2).head? = some a := rfl
      have hla : (a :: c2).getLast? = some a := by
        rw [← hhl]
        exact hha
      have hda : (st.dist a).isSome := by
        obtain ⟨la, hwa⟩ := hreach a (by simp)
        exact hdom la a hwa
      obtain ⟨da, hda'⟩ := Option.isSome_iff_exists.1 hda
      have htel := walk_telescope g st (a :: c2) a a da da hch hha hla hda' hda'
        (fun x y hx hy => by
          have hxd : (st.dist x).isSome := by
            obtain ⟨lx, hwx⟩ := hreach x hx
            exact hdom lx x hwx
          obtain ⟨dx0, hdx0⟩ := Option.isSome_iff_exists.1 hxd
          obtain ⟨dx, dv, hdx, hdv, hle⟩ := hrelall x hxd (y, getWeight g x y)
            ((mem_succList g x (y, getWeight g x y)).2 ⟨hy, rfl⟩)
          exact ⟨dx, dv, hdx, hdv, hle⟩)
      omega

/-- Witness for C2 at a concrete input: the negative-cycle test graph
with its reachable cycle 2 → 3 → 2 of weight -100. -/
theorem C2_negative_cycle_detected_witness :
    ∃ pr di w2, bellman_ford_tree gNegCycle 1 = .ok (pr, di, some w2) := by
  refine C2_negative_cycle_detected gNegCycle ⟨by decide, by decide, by decide⟩
    1 (by decide) [2, 3, 2]
    ⟨by decide, rfl, by decide,
      List.chain'_cons.2 ⟨by decide, List.chain'_cons.2
        ⟨by decide, List.chain'_singleton 2⟩⟩⟩ ?_ (by decide)
  intro x hx
  rcases List.mem_cons.1 hx with rfl | hx
  · exact ⟨[1, 2], rfl, rfl, List.chain'_cons.2 ⟨by decide, List.chain'_singleton 2⟩⟩
  rcases List.mem_cons.1 hx with rfl | hx
  · exact ⟨[1, 3], rfl, rfl, List.chain'_cons.2 ⟨by decide, List.chain'_singleton 3⟩⟩
  rcases List.mem_cons.1 hx with rfl | hx
  · exact ⟨[1, 2], rfl, rfl, List.chain'_cons.2 ⟨by decide, List.chain'_singleton 2⟩⟩
  · exact absurd hx (by simp)

/-- Splitting a weight sum at an interior occurrence of a node. -/
theorem wsum_append (g : Graph) (l1 : List Nat) (a : Nat) (l2 : List Nat) :
    wsum g (l1 ++ a :: l2) = wsum g (l1 ++ [a]) + wsum g (a :: l2) := by
  induction l1 with
  | nil =>
    show wsum g (a :: l2) = wsum g [a] + wsum g (a :: l2)
    rw [show wsum g [a] = 0 from rfl]
    omega
  | cons b t ih =>
    cases t with
    | nil =>
      show wsum g (b :: a :: l2) = wsum g (b :: [a]) + wsum g (a :: l2)
      rw [show wsum g (b :: a :: l2) = getWeight g b a + wsum g (a :: l2) from rfl,
        show wsum g (b :: [a]) = getWeight g b a + wsum g [a] from rfl,
        show wsum g [a] = 0 from rfl]
      omega
    | cons c t2 =>
      show wsum g (b :: (c :: t2 ++ a :: l2)) =
        wsum g (b :: (c :: t2 ++ [a])) + wsum g (a :: l2)
      rw [show wsum g (b :: (c :: t2 ++ a :: l2)) =
        getWeight g b c + wsum g (c :: t2 ++ a :: l2) from rfl]
      rw [show wsum g (b :: (c :: t2 ++ [a])) =
        getWeight g b c + wsum g (c :: t2 ++ [a]) from rfl]
      omega

/-- Splitting a list at the first occurrence of a member. -/
theorem mem_split_first (x : Nat) :
    ∀ (l : List Nat), x ∈ l → ∃ m s2, l = m ++ x :: s2 ∧ x ∉ m := by
  intro l
  induction l with
  | nil => intro h; simp at h
  | cons a t ih =>
    intro h
    by_cases hax : a = x
    · exact ⟨[], t, by rw [hax]; rfl, by simp⟩
    · rcases List.mem_cons.1 h with h1 | h2
      · exact absurd h1.symm hax
      · obtain ⟨m, s2, hms, hxm⟩ := ih h2
        refine ⟨a :: m, s2, by rw [hms]; rfl, ?_⟩
        intro hmem
        rcases List.mem_cons.1 hmem with h3 | h3
        · exact hax h3.symm
        · exact hxm h3

/-- A list with a repetition splits around the two occurrences. -/
theorem exists_dup_split :
    ∀ (l : List Nat), ¬l.Nodup → ∃ P a M S, l = P ++ a :: M ++ a :: S := by
  intro l
  induction l with
  | nil => intro h; exact absurd List.nodup_nil h
  | cons x t ih =>
    intro h
    by_cases hx : x ∈ t
    · obtain ⟨m, s2, hms, _⟩ := mem_split_first x t hx
      exact ⟨[], x, m, s2, by rw [hms]; rfl⟩
    · have ht : ¬t.Nodup := fun hnd => h (List.nodup_cons.2 ⟨hx, hnd⟩)
      obtain ⟨P, a, M, S, hPS⟩ := ih ht
      exact ⟨x :: P, a, M, S, by rw [hPS]; rfl⟩

/-- A chain survives a relation change supported away from the last
entry. -/
theorem chain'_congr_dropLast (R S : Nat → Nat → Prop) :
    ∀ (l : List Nat), (∀ a ∈ l.dropLast, ∀ b, R a b → S a b) →
      List.Chain' R l → List.Chain' S l := by
  intro l
  induction l with
  | nil => intro _ _; exact List.chain'_nil
  | cons a t ih =>
    intro hag hc
    cases t with
    | nil => exact List.chain'_singleton a
    | cons b t2 =>
      have hdl : (a :: b :: t2).dropLast = a :: (b :: t2).dropLast := rfl
      rw [List.chain'_cons] at hc
      rw [List.chain'_cons]
      refine ⟨hag a (by rw [hdl]; exact List.mem_cons_self _ _) b hc.1, ?_⟩
      refine ih ?_ hc.2
      intro y hy b2 hr
      exact hag y (by rw [hdl]; exact List.mem_cons_of_mem _ hy) b2 hr

/-- Any entry of a chain away from the last position has a successor
under the relation. -/
theorem chain'_mem_dropLast_step (R : Nat → Nat → Prop) :
    ∀ (l : List Nat) (y : Nat), List.Chain' R l → y ∈ l.dropLast →
      ∃ z, R y z := by
  intro l
  induction l with
  | nil => intro y _ hy; simp at hy
  | cons a t ih =>
    intro y hc hy
    cases t with
    | nil => simp at hy
    | cons b t2 =>
      have hdl : (a :: b :: t2).dropLast = a :: (b :: t2).dropLast := rfl
      rw [hdl] at hy
      rw [List.chain'_cons] at hc
      rcases List.mem_cons.1 hy with rfl | hy2
      · exact ⟨b, hc.1⟩
      · exact ih y hc.2 hy2

/-- Under the absence of reachable negative simple cycles, every closed
walk through reachable nodes has nonnegative weight. -/
theorem closedWalk_nonneg (g : Graph) (s : Nat) (hnnc : NoNegCycleFrom g s) :
    ∀ (n : Nat) (l : List Nat) (a : Nat), l.length ≤ n → IsWalk g a a l →
      (∀ y ∈ l, Reach g s y) → 0 ≤ wsum g l := by
  intro n
  induction n with
  | zero =>
    intro l a hlen hw hr
    match l, hlen with
    | [], _ => exact le_refl 0
  | succ n ihn =>
    intro l a hlen hw hr
    by_cases hnd : l.tail.Nodup
    · match l with
      | [] => exact le_refl 0
      | [x] => exact le_refl 0
      | x :: y :: t =>
        obtain ⟨hh, hl, hch⟩ := hw
        have hcyc : IsCycle g (x :: y :: t) :=
          ⟨by simp, by rw [hh, hl], hnd, hch⟩
        exact hnnc _ hcyc hr
    · obtain ⟨hh, hl, hch⟩ := hw
      cases l with
      | nil => exact absurd hh (by simp)
      | cons a0 t =>
        have ha0 : a0 = a := by simpa using hh
        subst ha0
        have hnd' : ¬t.Nodup := hnd
        obtain ⟨P, x0, M, S, hPS⟩ := exists_dup_split t hnd'
        subst hPS
        have hsplit : a0 :: (P ++ x0 :: M ++ x0 :: S) =
            (a0 :: P) ++ ((x0 :: M) ++ (x0 :: S)) := by simp
        rw [hsplit] at hch hl hr ⊢
        obtain ⟨hcA, hcBC, hlinkA⟩ := List.chain'_append.1 hch
        obtain ⟨hcB, hcC, hlinkB⟩ := List.chain'_append.1 hcBC
        have hlastC : (x0 :: S).getLast? = some ((x0 :: S).getLast (by simp)) :=
          List.getLast?_eq_getLast _ (by simp)
        have hlR : ((a0 :: P) ++ (x0 :: S)).getLast? = some a0 := by
          simp only [List.getLast?_append] at hl ⊢
          rw [hlastC] at hl ⊢
          simpa using hl
        have hwR : IsWalk g a0 a0 ((a0 :: P) ++ (x0 :: S)) := by
          refine ⟨?_, hlR, ?_⟩
          · rfl
          · rw [List.chain'_append]
            refine ⟨hcA, hcC, ?_⟩
            intro p hp q hq
            have hq' : x0 = q := by simpa using hq
            subst hq'
            exact hlinkA p hp x0 (by simp)
        have hwC : IsWalk g x0 x0 ((x0 :: M) ++ [x0]) := by
          refine ⟨?_, ?_, ?_⟩
          · rfl
          · rw [List.getLast?_concat]
          · rw [List.chain'_append]
            refine ⟨hcB, List.chain'_singleton x0, ?_⟩
            intro p hp q hq
            have hq' : x0 = q := by simpa using hq
            subst hq'
            exact hlinkB p hp x0 rfl
        have hsum : wsum g ((a0 :: P) ++ ((x0 :: M) ++ (x0 :: S))) =
            wsum g ((a0 :: P) ++ (x0 :: S)) + wsum g ((x0 :: M) ++ [x0]) := by
          have h1 : wsum g ((a0 :: P) ++ ((x0 :: M) ++ (x0 :: S))) =
              wsum g ((a0 :: P) ++ [x0]) + wsum g (x0 :: (M ++ x0 :: S)) :=
            wsum_append g (a0 :: P) x0 (M ++ x0 :: S)
          have h2 : wsum g (x0 :: (M ++ x0 :: S)) =
              wsum g ((x0 :: M) ++ [x0]) + wsum g (x0 :: S) :=
            wsum_append g (x0 :: M) x0 S
          have h3 : wsum g ((a0 :: P) ++ (x0 :: S)) =
              wsum g ((a0 :: P) ++ [x0]) + wsum g (x0 :: S) :=
            wsum_append g (a0 :: P) x0 S
          omega
        rw [hsum]
        have hrR : ∀ y ∈ (a0 :: P) ++ (x0 :: S), Reach g s y := by
          intro y hy
          refine hr y ?_
          rcases List.mem_append.1 hy with h1 | h1
          · exact List.mem_append.2 (Or.inl h1)
          · exact List.mem_append.2 (Or.inr (List.mem_append.2 (Or.inr h1)))
        have hrC : ∀ y ∈ (x0 :: M) ++ [x0], Reach g s y := by
          intro y hy
          refine hr y ?_
          rcases List.mem_append.1 hy with h1 | h1
          · exact List.mem_append.2 (Or.inr (List.mem_append.2 (Or.inl h1)))
          · have : y = x0 := by simpa using h1
            subst this
            exact List.mem_append.2 (Or.inr (List.mem_append.2 (Or.inl (by simp))))
        have hlenR : ((a0 :: P) ++ (x0 :: S)).length ≤ n := by
          have := hlen
          simp only [List.length_cons, List.length_append] at this ⊢
          omega
        have hlenC : ((x0 :: M) ++ [x0]).length ≤ n := by
          have := hlen
          simp only [List.length_cons, List.length_append, List.length_nil]
            at this ⊢
          omega
        have h1 := ihn _ a0 hlenR hwR hrR
        have h2 := ihn _ x0 hlenC hwC hrC
        omega

/-- A closed backward predecessor chain is impossible mid-run when no
negative cycle is reachable from the source. -/
theorem no_closed_backchain (g : Graph) (s u0 : Nat) (du : Int)
    (done : List (Nat × Int)) (st1 st : BF)
    (hF : FInv g s u0 du done st1 st) (hnnc : NoNegCycleFrom g s)
    (c : List Nat) (hlen : 2 ≤ c.length) (hcl : c.head? = c.getLast?)
    (hch : BackChain st c) : False := by
  have hpcl : PredCycleL st c.reverse := by
    refine ⟨by simpa using hlen, ?_, ?_⟩
    · rw [List.head?_reverse, List.getLast?_reverse]
      exact hcl.symm
    · rw [List.chain'_reverse]
      exact hch
  have hneg := hF.negCyc c.reverse hpcl
  obtain ⟨a, hha⟩ : ∃ a, c.head? = some a := by
    cases c with
    | nil => simp at hlen
    | cons x t => exact ⟨x, rfl⟩
  have hwalk : IsWalk g a a c.reverse := by
    refine ⟨?_, ?_, ?_⟩
    · rw [List.head?_reverse, ← hcl]
      exact hha
    · rw [List.getLast?_reverse]
      exact hha
    · rw [List.chain'_reverse]
      refine List.Chain'.imp ?_ hch
      intro a2 b2 h2
      exact hF.predEdge a2 b2 h2
  have hdist : ∀ y ∈ c, (st.dist y).isSome := by
    intro y hy
    have hyd : y ∈ c.dropLast := mem_dropLast_of_closed c y hlen hcl hy
    obtain ⟨z, hz⟩ := chain'_mem_dropLast_step _ c y hch hyd
    have hys : (st.pred y).isSome := by rw [hz]; rfl
    exact (hF.domIff y).2 hys
  have hreach : ∀ y ∈ c.reverse, Reach g s y := by
    intro y hy
    rw [List.mem_reverse] at hy
    obtain ⟨d, hd⟩ := Option.isSome_iff_exists.1 (hdist y hy)
    obtain ⟨l, hwl, _⟩ := hF.walkVal y d hd
    exact ⟨l, hwl⟩
  have := closedWalk_nonneg g s hnnc c.reverse.length c.reverse a (le_refl _)
    hwalk hreach
  omega

/-- A backward predecessor chain longer than the node count is
impossible mid-run when no negative cycle is reachable. -/
theorem no_long_backchain (g : Graph) (s u0 : Nat) (du : Int)
    (done : List (Nat × Int)) (st1 st : BF)
    (hF : FInv g s u0 du done st1 st) (hnnc : NoNegCycleFrom g s)
    (l : List Nat) (hl : g.nodes.length + 1 ≤ l.length)
    (hch : BackChain st l)
    (hdist : ∀ y ∈ l, (st.dist y).isSome) : False := by
  have hsub : ∀ y ∈ l, y ∈ g.nodes := fun y hy => hF.domNodes y (hdist y hy)
  have hnd : ¬l.Nodup := by
    intro hnd
    have h1 : l.toFinset.card = l.length := List.toFinset_card_of_nodup hnd
    have h2 : l.toFinset ⊆ g.nodes.toFinset := by
      intro y hy
      rw [List.mem_toFinset] at hy ⊢
      exact hsub y hy
    have h3 := Finset.card_le_card h2
    have h4 : g.nodes.toFinset.card ≤ g.nodes.length := g.nodes.toFinset_card_le
    omega
  obtain ⟨P, a, M, S, hPS⟩ := exists_dup_split l hnd
  subst hPS
  have hsplit : P ++ a :: M ++ a :: S = P ++ ((a :: M) ++ (a :: S)) := by simp
  rw [hsplit] at hch
  obtain ⟨hcP, hcBC, hlinkP⟩ := List.chain'_append.1 hch
  obtain ⟨hcB, hcC, hlinkB⟩ := List.chain'_append.1 hcBC
  have hchc : BackChain st ((a :: M) ++ [a]) := by
    rw [BackChain, List.chain'_append]
    refine ⟨hcB, List.chain'_singleton a, ?_⟩
    intro p hp q hq
    have hq' : a = q := by simpa using hq
    subst hq'
    exact hlinkB p hp a rfl
  refine no_closed_backchain g s u0 du done st1 st hF hnnc ((a :: M) ++ [a])
    ?_ ?_ hchc
  · simp only [List.length_append, List.length_cons, List.length_nil]
    omega
  · rw [List.getLast?_concat]
    rfl

/-- If the freshly assigned node already lies on the processed node's
backward chain, the updated predecessor map has a closed backward
chain. -/
theorem backchain_cycle_of_mem (st st2 : BF) (u v : Nat)
    (hpredv : st2.pred v = some (some u))
    (hpred2 : ∀ x, x ≠ v → st2.pred x = st.pred x)
    (lu : List Nat) (hluh : lu.head? = some u) (hluc : BackChain st lu)
    (hvlu : v ∈ lu) :
    ∃ c, 2 ≤ c.length ∧ c.head? = c.getLast? ∧ BackChain st2 c := by
  obtain ⟨A, B, hAB, hvA⟩ := mem_split_first v lu hvlu
  subst hAB
  refine ⟨(v :: A) ++ [v], ?_, ?_, ?_⟩
  · simp only [List.length_append, List.length_cons, List.length_nil]
    omega
  · rw [List.getLast?_concat]
    rfl
  · rw [BackChain, List.chain'_append]
    refine ⟨?_, List.chain'_singleton v, ?_⟩
    · cases A with
      | nil => exact List.chain'_singleton v
      | cons a0 A2 =>
        rw [List.chain'_cons]
        have hu0 : a0 = u := by
          have h0 : (a0 :: (A2 ++ v :: B)).head? = some u := hluh
          simpa using h0
        refine ⟨by rw [hu0]; exact hpredv, ?_⟩
        have hcA : List.Chain' (fun a b => st.pred a = some (some b)) (a0 :: A2) :=
          (List.chain'_append.1
            (show List.Chain' _ ((a0 :: A2) ++ v :: B) from hluc)).1
        refine chain'_congr_dropLast _ _ (a0 :: A2) ?_ hcA
        intro a ha b hr
        have hav : a ≠ v := by
          intro h
          exact hvA (h ▸ List.mem_of_mem_dropLast ha)
        rw [hpred2 a hav]
        exact hr
    · intro p hp q hq
      have hq' : v = q := by simpa using hq
      subst hq'
      cases A with
      | nil =>
        have hp' : v = p := by simpa using hp
        subst hp'
        have huv : v = u := by simpa using hluh
        rw [hpredv, huv]
      | cons a0 A2 =>
        have hlink := (List.chain'_append.1
          (show List.Chain' _ ((a0 :: A2) ++ v :: B) from hluc)).2.2
        rw [List.getLast?_cons_cons] at hp
        have hpA : p ∈ (a0 :: A2) := List.mem_of_mem_getLast? hp
        have hpv : p ≠ v := fun h => hvA (h ▸ hpA)
        have hstep : st.pred p = some (some v) := hlink p hp v rfl
        rw [hpred2 p hpv]
        exact hstep

/-- Repairing a node's backward chain across a predecessor update,
assuming the assigned node's own new chain is available and cycle
free. -/
theorem chain_update (st st2 : BF) (u v : Nat) (cur : Nat)
    (hpredv : st2.pred v = some (some u))
    (hpred2 : ∀ x, x ≠ v → st2.pred x = st.pred x)
    (hdist2 : ∀ y, (st.dist y).isSome → (st2.dist y).isSome)
    (hdistv : (st2.dist v).isSome)
    (lu : List Nat) (hluh : lu.head? = some u) (hluc : BackChain st lu)
    (hlud : ∀ y ∈ lu, (st.dist y).isSome) (hlul : cur + 1 ≤ lu.length)
    (hvlu : v ∉ lu)
    (x : Nat) (lx : List Nat) (hlxh : lx.head? = some x)
    (hlxc : BackChain st lx) (hlxd : ∀ y ∈ lx, (st.dist y).isSome) :
    ∃ l2, l2.head? = some x ∧
      (lx.length ≤ l2.length ∨ cur + 2 ≤ l2.length) ∧
      BackChain st2 l2 ∧ ∀ y ∈ l2, (st2.dist y).isSome := by
  have hluc2 : BackChain st2 lu := by
    refine chain'_congr_dropLast _ _ lu ?_ hluc
    intro a ha b hr
    have hav : a ≠ v := fun h => hvlu (h ▸ List.mem_of_mem_dropLast ha)
    rw [hpred2 a hav]
    exact hr
  have hvchain : BackChain st2 (v :: lu) := by
    cases lu with
    | nil => exact absurd hluh (by simp)
    | cons u0 lu2 =>
      have hu0 : u0 = u := by simpa using hluh
      rw [BackChain, List.chain'_cons]
      exact ⟨by rw [hu0]; exact hpredv, hluc2⟩
  by_cases hvlx : v ∈ lx
  · obtain ⟨A, B, hAB, hvA⟩ := mem_split_first v lx hvlx
    subst hAB
    refine ⟨A ++ (v :: lu), ?_, ?_, ?_, ?_⟩
    · cases A with
      | nil =>
        have hx : v = x := by simpa using hlxh
        rw [← hx]
        rfl
      | cons a0 A2 =>
        have hx : a0 = x := by simpa using hlxh
        rw [← hx]
        rfl
    · right
      simp only [List.length_append, List.length_cons]
      omega
    · rw [BackChain, List.chain'_append]
      refine ⟨?_, hvchain, ?_⟩
      · have hcA : List.Chain' (fun a b => st.pred a = some (some b)) A :=
          (List.chain'_append.1
            (show List.Chain' _ (A ++ v :: B) from hlxc)).1
        refine chain'_congr_dropLast _ _ A ?_ hcA
        intro a ha b hr
        have hav : a ≠ v := fun h => hvA (h ▸ List.mem_of_mem_dropLast ha)
        rw [hpred2 a hav]
        exact hr
      · intro p hp q hq
        have hq' : v = q := by simpa using hq
        subst hq'
        have hlink := (List.chain'_append.1
          (show List.Chain' _ (A ++ v :: B) from hlxc)).2.2
        have hpA : p ∈ A := List.mem_of_mem_getLast? hp
        have hpv : p ≠ v := fun h => hvA (h ▸ hpA)
        rw [hpred2 p hpv]
        exact hlink p hp v rfl
    · intro y hy
      rcases List.mem_append.1 hy with h1 | h1
      · exact hdist2 y (hlxd y (List.mem_append.2 (Or.inl h1)))
      · rcases List.mem_cons.1 h1 with rfl | h2
        · exact hdistv
        · exact hdist2 y (hlud y h2)
  · refine ⟨lx, hlxh, Or.inl (le_refl _), ?_, ?_⟩
    · refine chain'_congr_dropLast _ _ lx ?_ hlxc
      intro a ha b hr
      have hav : a ≠ v := fun h => hvlx (h ▸ List.mem_of_mem_dropLast ha)
      rw [hpred2 a hav]
      exact hr
    · intro y hy
      exact hdist2 y (hlxd y hy)

/-- Pointwise transport of the tag alignment along a tag function that
agrees on the queued nodes. -/
theorem forall₂_tag_congr (f f2 : Nat → Nat) :
    ∀ (tags q : List Nat),
      List.Forall₂ (fun t x => t = f x) tags q →
      (∀ x ∈ q, f2 x = f x) →
      List.Forall₂ (fun t x => t = f2 x) tags q := by
  intro tags q h
  induction h with
  | nil => intro hcong; exact List.Forall₂.nil
  | cons h1 h2 ih =>
    rename_i a b l1 l2
    intro hcong
    refine List.Forall₂.cons ?_ (ih (fun x hx => hcong x (List.mem_cons_of_mem _ hx)))
    rw [hcong b (List.mem_cons_self _ _)]
    exact h1

/-- Rebuilding every node's phase-length backward chain after a
relaxation assignment whose target is absent from the processed node's
chain. -/
theorem ghost_chain_update (st st2 : BF) (u v : Nat) (tau : Nat → Nat)
    (cur : Nat)
    (hpredv : st2.pred v = some (some u))
    (hpred2 : ∀ x, x ≠ v → st2.pred x = st.pred x)
    (hdistE : ∀ x, x ≠ v → st2.dist x = st.dist x)
    (hdistv : (st2.dist v).isSome)
    (hglob : ∀ x, tau x ≤ cur + 1)
    (hchain : ∀ x, (st.dist x).isSome → ∃ l, l.head? = some x ∧
      tau x + 1 ≤ l.length ∧ BackChain st l ∧ ∀ y ∈ l, (st.dist y).isSome)
    (lu : List Nat) (hluh : lu.head? = some u) (hluc : BackChain st lu)
    (hlud : ∀ y ∈ lu, (st.dist y).isSome) (hlul : cur + 1 ≤ lu.length)
    (hvlu : v ∉ lu) :
    ∀ x, (st2.dist x).isSome → ∃ l, l.head? = some x ∧
      fupd tau v (cur + 1) x + 1 ≤ l.length ∧ BackChain st2 l ∧
      ∀ y ∈ l, (st2.dist y).isSome := by
  have hdist2 : ∀ y, (st.dist y).isSome → (st2.dist y).isSome := by
    intro y hy
    by_cases hyv : y = v
    · rw [hyv]
      exact hdistv
    · rw [hdistE y hyv]
      exact hy
  have hluc2 : BackChain st2 lu := by
    refine chain'_congr_dropLast _ _ lu ?_ hluc
    intro a ha b hr
    have hav : a ≠ v := fun h => hvlu (h ▸ List.mem_of_mem_dropLast ha)
    rw [hpred2 a hav]
    exact hr
  have hvchain : BackChain st2 (v :: lu) := by
    cases lu with
    | nil => exact absurd hluh (by simp)
    | cons u0 lu2 =>
      have hu0 : u0 = u := by simpa using hluh
      rw [BackChain, List.chain'_cons]
      exact ⟨by rw [hu0]; exact hpredv, hluc2⟩
  intro x hx
  by_cases hxv : x = v
  · subst hxv
    refine ⟨x :: lu, rfl, ?_, hvchain, ?_⟩
    · rw [fupd_self, List.length_cons]
      omega
    · intro y hy
      rcases List.mem_cons.1 hy with rfl | h2
      · exact hdistv
      · exact hdist2 y (hlud y h2)
  · have hx' : (st.dist x).isSome := by
      rw [← hdistE x hxv]
      exact hx
    obtain ⟨lx, hlxh, hlxlen, hlxc, hlxd⟩ := hchain x hx'
    obtain ⟨l2, hh2, hlen2, hch2, hd2⟩ := chain_update st st2 u v cur hpredv
      hpred2 hdist2 hdistv lu hluh hluc hlud hlul hvlu x lx hlxh hlxc hlxd
    refine ⟨l2, hh2, ?_, hch2, hd2⟩
    rw [fupd_other tau v x (cur + 1) hxv]
    rcases hlen2 with h | h
    · omega
    · have := hglob x
      omega

/-- Processing the successor items of `u` under the ghost invariant
when no negative cycle is reachable: the early-return trigger cannot
fire, and the ghost invariant survives with the same dequeue phase. -/
theorem relaxEdges_ghost (g : Graph) (hg : GWF g) (s u : Nat) (du : Int)
    (hnnc : NoNegCycleFrom g s)
    (items : List (Nat × Int)) (done : List (Nat × Int)) (st1 st st' : BF)
    (res : Option Nat) (tau lastTag : Nat → Nat) (cur : Nat) (tags : List Nat)
    (hitems : ∀ p ∈ items, p ∈ succList g u)
    (hinv : FInv g s u du done st1 st)
    (hG : GInvL st ⟨tau, lastTag, cur, tags⟩)
    (htau : cur ≤ tau u)
    (h : relaxEdges g.nodes.length u du items st = (st', res)) :
    res = none ∧ ∃ tau2 lastTag2 tags2,
      GInvL st' ⟨tau2, lastTag2, cur, tags2⟩ ∧ cur ≤ tau2 u := by
  induction items generalizing done st tau lastTag tags with
  | nil =>
    rw [relaxEdges] at h
    injection h with h1 h2
    subst h1
    subst h2
    exact ⟨rfl, tau, lastTag, tags, hG, htau⟩
  | cons p rest ih =>
    obtain ⟨v, w⟩ := p
    have hmem : (v, w) ∈ succList g u := hitems (v, w) (List.mem_cons_self _ _)
    have hrest : ∀ p ∈ rest, p ∈ succList g u :=
      fun p hp => hitems p (List.mem_cons_of_mem _ hp)
    rw [relaxEdges] at h
    by_cases h1 : improves (st.dist v) (du + w)
    · rw [if_pos h1] at h
      have hDu : (st.dist u).isSome := by
        by_cases hu : u ∈ st.inq
        · obtain ⟨d, hd, _⟩ := hinv.mfIn hu
          rw [hd]
          rfl
        · rw [hinv.mfOut hu]
          rfl
      obtain ⟨lu, hluh, hlulen, hluc, hlud⟩ := hG.chain u hDu
      have hlulen2 : tau u + 1 ≤ lu.length := hlulen
      have hlul : cur + 1 ≤ lu.length := by
        have h5 := htau
        omega
      by_cases h2 : v ∈ (v :: st.inq).tail
      · simp only [List.tail_cons] at h2
        rw [if_pos h2] at h
        have hinv2 := finv_improve_inq g hg s u du done st1 st v w hmem h1 hinv h2
        by_cases hvlu : v ∈ lu
        · exfalso
          obtain ⟨c, hclen, hccl, hcch⟩ := backchain_cycle_of_mem st
            ⟨fupd st.dist v (some (du + w)), fupd st.pred v (some (some u)),
              st.count, st.q, st.inq⟩ u v (fupd_self _ _ _)
            (fun x hx => fupd_other _ _ _ _ hx) lu hluh hluc hvlu
          exact no_closed_backchain g s u du (done ++ [(v, w)]) st1 _ hinv2 hnnc
            c hclen hccl hcch
        · have hchains := ghost_chain_update st
            ⟨fupd st.dist v (some (du + w)), fupd st.pred v (some (some u)),
              st.count, st.q, st.inq⟩ u v tau cur (fupd_self _ _ _)
            (fun x hx => fupd_other _ _ _ _ hx)
            (fun x hx => fupd_other _ _ _ _ hx)
            (show (fupd st.dist v (some (du + w)) v).isSome by
              rw [fupd_self]
              rfl)
            hG.glob hG.chain lu hluh hluc hlud hlul hvlu
          refine ih (done ++ [(v, w)]) _ (fupd tau v (cur + 1)) lastTag tags
            hrest hinv2 ?_ ?_ h
          · refine ⟨?_, hchains, hG.tout, hG.tcount, ?_, hG.tpw, hG.tspan,
              hG.talign⟩
            · intro x
              show fupd tau v (cur + 1) x ≤ cur + 1
              by_cases hxv : x = v
              · rw [hxv, fupd_self]
              · rw [fupd_other _ _ _ _ hxv]
                exact hG.glob x
            · intro x
              show lastTag x ≤ fupd tau v (cur + 1) x
              by_cases hxv : x = v
              · rw [hxv, fupd_self]
                have h5 : lastTag v ≤ tau v := hG.tle v
                have h6 : tau v ≤ cur + 1 := hG.glob v
                omega
              · rw [fupd_other _ _ _ _ hxv]
                exact hG.tle x
          · show cur ≤ fupd tau v (cur + 1) u
            by_cases huv : u = v
            · rw [huv, fupd_self]
              omega
            · rw [fupd_other _ _ _ _ huv]
              exact htau
      · simp only [List.tail_cons] at h2
        rw [if_neg h2] at h
        have hvq : v ∉ st.q := fun hq => h2 ((hinv.qinq v).2 hq)
        have hcnt : st.count v ≤ lastTag v := hG.tcount v
        have hout : lastTag v ≤ cur := hG.tout v h2
        by_cases h3 : st.count v + 1 = g.nodes.length
        · rw [if_pos h3] at h
          exfalso
          have hinv2 := finv_improve_enq g hg s u du done st1 st v w st.count
            hmem h1 hinv h2 hinv.countBound hinv.countNodes
          by_cases hvlu : v ∈ lu
          · obtain ⟨c, hclen, hccl, hcch⟩ := backchain_cycle_of_mem st
              ⟨fupd st.dist v (some (du + w)), fupd st.pred v (some (some u)),
                st.count, st.q ++ [v], v :: st.inq⟩ u v (fupd_self _ _ _)
              (fun x hx => fupd_other _ _ _ _ hx) lu hluh hluc hvlu
            exact no_closed_backchain g s u du (done ++ [(v, w)]) st1 _ hinv2
              hnnc c hclen hccl hcch
          · have hchains := ghost_chain_update st
              ⟨fupd st.dist v (some (du + w)), fupd st.pred v (some (some u)),
                st.count, st.q ++ [v], v :: st.inq⟩ u v tau cur (fupd_self _ _ _)
              (fun x hx => fupd_other _ _ _ _ hx)
              (fun x hx => fupd_other _ _ _ _ hx)
              (show (fupd st.dist v (some (du + w)) v).isSome by
                rw [fupd_self]
                rfl)
              hG.glob hG.chain lu hluh hluc hlud hlul hvlu
            obtain ⟨lv, hlvh, hlvlen, hlvc, hlvd⟩ := hchains v
              (show (fupd st.dist v (some (du + w)) v).isSome by
                rw [fupd_self]
                rfl)
            have hlong : g.nodes.length + 1 ≤ lv.length := by
              rw [fupd_self] at hlvlen
              omega
            exact no_long_backchain g s u du (done ++ [(v, w)]) st1 _ hinv2 hnnc
              lv hlong hlvc hlvd
        · rw [if_neg h3] at h
          have hvnodes : v ∈ g.nodes :=
            succTargets_mem_nodes g hg u v ((mem_succList g u (v, w)).1 hmem).1
          have hC2b : ∀ x, fupd st.count v (st.count v + 1) x < g.nodes.length := by
            intro x
            by_cases hx : x = v
            · rw [hx, fupd_self]
              have := hinv.countBound v
              omega
            · rw [fupd_other _ _ _ _ hx]
              exact hinv.countBound x
          have hC2n : ∀ x, x ∉ g.nodes → fupd st.count v (st.count v + 1) x = 0 := by
            intro x hx
            have hxv : x ≠ v := fun hh => hx (hh ▸ hvnodes)
            rw [fupd_other _ _ _ _ hxv]
            exact hinv.countNodes x hx
          have hinv2 := finv_improve_enq g hg s u du done st1 st v w
            (fupd st.count v (st.count v + 1)) hmem h1 hinv h2 hC2b hC2n
          by_cases hvlu : v ∈ lu
          · exfalso
            obtain ⟨c, hclen, hccl, hcch⟩ := backchain_cycle_of_mem st
              ⟨fupd st.dist v (some (du + w)), fupd st.pred v (some (some u)),
                fupd st.count v (st.count v + 1), st.q ++ [v], v :: st.inq⟩ u v
              (fupd_self _ _ _) (fun x hx => fupd_other _ _ _ _ hx) lu hluh hluc
              hvlu
            exact no_closed_backchain g s u du (done ++ [(v, w)]) st1 _ hinv2
              hnnc c hclen hccl hcch
          · have hchains := ghost_chain_update st
              ⟨fupd st.dist v (some (du + w)), fupd st.pred v (some (some u)),
                fupd st.count v (st.count v + 1), st.q ++ [v], v :: st.inq⟩ u v
              tau cur (fupd_self _ _ _)
              (fun x hx => fupd_other _ _ _ _ hx)
              (fun x hx => fupd_other _ _ _ _ hx)
              (show (fupd st.dist v (some (du + w)) v).isSome by
                rw [fupd_self]
                rfl)
              hG.glob hG.chain lu hluh hluc hlud hlul hvlu
            refine ih (done ++ [(v, w)]) _ (fupd tau v (cur + 1))
              (fupd lastTag v (cur + 1)) (tags ++ [cur + 1]) hrest hinv2 ?_ ?_ h
            · refine ⟨?_, hchains, ?_, ?_, ?_, ?_, ?_, ?_⟩
              · intro x
                show fupd tau v (cur + 1) x ≤ cur + 1
                by_cases hxv : x = v
                · rw [hxv, fupd_self]
                · rw [fupd_other _ _ _ _ hxv]
                  exact hG.glob x
              · intro x hx
                have hxv : x ≠ v := fun hh => hx (hh ▸ List.mem_cons_self v st.inq)
                have hxq : x ∉ st.inq := fun hh => hx (List.mem_cons_of_mem v hh)
                show fupd lastTag v (cur + 1) x ≤ cur
                rw [fupd_other _ _ _ _ hxv]
                exact hG.tout x hxq
              · intro x
                show fupd st.count v (st.count v + 1) x ≤
                  fupd lastTag v (cur + 1) x
                by_cases hxv : x = v
                · rw [hxv, fupd_self, fupd_self]
                  omega
                · rw [fupd_other _ _ _ _ hxv, fupd_other _ _ _ _ hxv]
                  exact hG.tcount x
              · intro x
                show fupd lastTag v (cur + 1) x ≤ fupd tau v (cur + 1) x
                by_cases hxv : x = v
                · rw [hxv, fupd_self, fupd_self]
                · rw [fupd_other _ _ _ _ hxv, fupd_other _ _ _ _ hxv]
                  exact hG.tle x
              · show (tags ++ [cur + 1]).Pairwise (· ≤ ·)
                rw [List.pairwise_append]
                refine ⟨hG.tpw, List.pairwise_singleton _ _, ?_⟩
                intro a ha b hb
                have hb' : b = cur + 1 := by simpa using hb
                rw [hb']
                exact (hG.tspan a ha).2
              · intro t ht
                show cur ≤ t ∧ t ≤ cur + 1
                rcases List.mem_append.1 ht with h5 | h5
                · exact hG.tspan t h5
                · have ht' : t = cur + 1 := by simpa using h5
                  rw [ht']
                  omega
              · show List.Forall₂ (fun t x => t = fupd lastTag v (cur + 1) x)
                  (tags ++ [cur + 1]) (st.q ++ [v])
                refine List.rel_append ?_ ?_
                · refine forall₂_tag_congr lastTag _ tags st.q hG.talign ?_
                  intro x hx
                  have hxv : x ≠ v := fun hh => hvq (hh ▸ hx)
                  exact fupd_other _ _ _ _ hxv
                · refine List.Forall₂.cons ?_ List.Forall₂.nil
                  rw [fupd_self]
            · show cur ≤ fupd tau v (cur + 1) u
              by_cases huv : u = v
              · rw [huv, fupd_self]
                omega
              · rw [fupd_other _ _ _ _ huv]
                exact htau
    · rw [if_neg h1] at h
      have h1f : improves (st.dist v) (du + w) = false := by
        cases hb : improves (st.dist v) (du + w) with
        | false => rfl
        | true => exact absurd hb h1
      obtain ⟨x0, hx0, hle0⟩ := improves_false_le _ _ h1f
      have hinv2 : FInv g s u du (done ++ [(v, w)]) st1 st :=
        { hinv with
          procRelaxed := by
            intro p hp
            rcases List.mem_append.1 hp with hp | hp
            · exact hinv.procRelaxed p hp
            · have hpv : p = (v, w) := by simpa using hp
              rw [hpv]
              exact ⟨x0, hx0, hle0⟩ }
      exact ih (done ++ [(v, w)]) st tau lastTag tags hrest hinv2 hG htau h

/-- The relaxation loop never returns a cycle witness when no negative
cycle is reachable from the source. -/
theorem relaxLoop_ghost (g : Graph) (hg : GWF g) (s : Nat)
    (hnnc : NoNegCycleFrom g s) (fuel : Nat) (st st' : BF) (w : Option Nat)
    (gh : Ghost)
    (hL : LoopInv g s st) (hG : GInvL st gh)
    (h : relaxLoop g g.nodes.length fuel st = some (st', w)) :
    w = none := by
  induction fuel generalizing st gh with
  | zero =>
    rw [relaxLoop_zero] at h
    exact absurd h (by simp)
  | succ fuel ih =>
    match hq : st.q with
    | [] =>
      rw [relaxLoop_succ_nil g g.nodes.length fuel st hq] at h
      simp only [Option.some.injEq, Prod.mk.injEq] at h
      exact h.2.symm
    | u :: rest =>
      obtain ⟨tau, lastTag, cur, tags⟩ := gh
      have htal := hG.talign
      rw [hq] at htal
      rw [List.forall₂_cons_right_iff] at htal
      obtain ⟨t0, tags2, ht0, htal2, htags⟩ := htal
      subst htags
      have ht0span : cur ≤ t0 ∧ t0 ≤ cur + 1 :=
        hG.tspan t0 (List.mem_cons_self _ _)
      have hpw2 : tags2.Pairwise (· ≤ ·) := (List.pairwise_cons.1 hG.tpw).2
      have hhead : ∀ t ∈ tags2, t0 ≤ t := (List.pairwise_cons.1 hG.tpw).1
      have ht0u : t0 = lastTag u := ht0
      have hG1 : GInvL { st with q := rest, inq := st.inq.erase u }
          ⟨tau, lastTag, t0, tags2⟩ := by
        refine ⟨?_, ?_, ?_, hG.tcount, hG.tle, hpw2, ?_, ?_⟩
        · intro x
          show tau x ≤ t0 + 1
          have h5 : tau x ≤ cur + 1 := hG.glob x
          omega
        · intro x hx
          exact hG.chain x hx
        · intro x hx
          show lastTag x ≤ t0
          by_cases hxu : x = u
          · rw [hxu]
            exact le_of_eq ht0u.symm
          · have hxq : x ∉ st.inq := by
              intro hmem
              exact hx ((List.mem_erase_of_ne hxu).2 hmem)
            have h5 : lastTag x ≤ cur := hG.tout x hxq
            omega
        · intro t ht
          show t0 ≤ t ∧ t ≤ t0 + 1
          have h5 : cur ≤ t ∧ t ≤ cur + 1 :=
            hG.tspan t (List.mem_cons_of_mem _ ht)
          have h6 := hhead t ht
          omega
        · exact htal2
      rw [relaxLoop_succ_cons g g.nodes.length fuel st u rest hq] at h
      by_cases hskip : skipTest { st with q := rest, inq := st.inq.erase u } u
      · rw [if_pos hskip] at h
        exact ih _ ⟨tau, lastTag, t0, tags2⟩
          (loopinv_skip g s st u rest hq hL hskip) hG1 h
      · rw [if_neg hskip] at h
        have huq : u ∈ st.q := by rw [hq]; exact List.mem_cons_self _ _
        obtain ⟨du, hdu⟩ := Option.isSome_iff_exists.1 (hL.qdom u huq)
        have hgetd : ((({ st with q := rest, inq := st.inq.erase u } : BF).dist u).getD 0) = du := by
          show (st.dist u).getD 0 = du
          rw [hdu]
          rfl
        rw [hgetd] at h
        have hstart := finv_start g s st u rest du hq hL hdu
        have htau1 : t0 ≤ tau u := by
          have h5 : lastTag u ≤ tau u := hG.tle u
          omega
        cases hE : relaxEdges g.nodes.length u du (succList g u)
            { st with q := rest, inq := st.inq.erase u } with
        | mk st2 res =>
          rw [hE] at h
          obtain ⟨hres, tau2, lastTag2, tags2b, hG2, htau2⟩ := relaxEdges_ghost
            g hg s u du hnnc (succList g u) [] _ _ st2 res tau lastTag t0 tags2
            (fun p hp => hp) hstart hG1 htau1 hE
          subst hres
          obtain ⟨done2, hF, hnone, -⟩ := relaxEdges_preserve g hg s u du
            (succList g u) [] _ _ st2 none (fun p hp => hp) hstart hE
          obtain ⟨hdone2, -⟩ := hnone rfl
          subst hdone2
          have hLF : LoopInv g s st2 := loopinv_repair g s st u rest du st2 hq
            hL hdu (by simpa using hF)
          exact ih st2 ⟨tau2, lastTag2, t0, tags2b⟩ hLF hG2 h

/-- When no negative cycle is reachable from a member source, the tree
run completes with no cycle witness, an empty queue and the full loop
invariant. -/
theorem bellman_ford_tree_no_cycle (g : Graph) (hg : GWF g) (s : Nat)
    (hs : s ∈ g.nodes) (hnnc : NoNegCycleFrom g s) :
    ∃ st, bellman_ford_tree g s = .ok (st.pred, st.dist, none) ∧
      LoopInv g s st ∧ st.q = [] := by
  obtain ⟨st, w, hrel, hok⟩ := bellman_ford_tree_some g hg s hs
  have hG0 : GInvL (⟨fupd (fun _ => none) s (some 0),
      fupd (fun _ => none) s (some none), fun _ => 0, [s], [s]⟩ : BF)
      ⟨fun _ => 0, fun _ => 0, 0, [0]⟩ := by
    refine ⟨?_, ?_, ?_, ?_, ?_, ?_, ?_, ?_⟩
    · intro x
      show (0 : Nat) ≤ 0 + 1
      omega
    · intro x hx
      have hx' : (fupd (fun _ => (none : Option Int)) s (some 0) x).isSome := hx
      by_cases hxs : x = s
      · subst hxs
        refine ⟨[x], rfl, by simp, List.chain'_singleton x, ?_⟩
        intro y hy
        have hyx : y = x := by simpa using hy
        rw [hyx]
        exact hx
      · rw [fupd_other _ _ _ _ hxs] at hx'
        exact absurd hx' (by simp)
    · intro x hx
      show (0 : Nat) ≤ 0
      omega
    · intro x
      show (0 : Nat) ≤ 0
      omega
    · intro x
      show (0 : Nat) ≤ 0
      omega
    · show ([0] : List Nat).Pairwise (· ≤ ·)
      exact List.pairwise_singleton _ _
    · intro t ht
      show (0 : Nat) ≤ t ∧ t ≤ 0 + 1
      have ht' : t = 0 := by simpa using ht
      omega
    · exact List.Forall₂.cons rfl List.Forall₂.nil
  have hwnone : w = none := relaxLoop_ghost g hg s hnnc (loopFuel g [s]) _ st w
    ⟨fun _ => 0, fun _ => 0, 0, [0]⟩ (loopinv_init g hg s hs) hG0 hrel
  subst hwnone
  have hpre := relaxLoop_preserve g hg s (loopFuel g [s]) _ st none
    (loopinv_init g hg s hs) hrel
  obtain ⟨hexit, -⟩ := hpre
  obtain ⟨hqe, hLf⟩ := hexit rfl
  exact ⟨st, hok, hLf, hqe⟩

/-- Every node on a walk from the source is reachable. -/
theorem walk_prefix_reach (g : Graph) (s x : Nat) (l : List Nat)
    (hw : IsWalk g s x l) : ∀ y ∈ l, Reach g s y := by
  obtain ⟨hh, hl, hch⟩ := hw
  intro y hy
  obtain ⟨P, S, hPS⟩ := List.append_of_mem hy
  subst hPS
  refine ⟨P ++ [y], ?_, ?_, ?_⟩
  · cases P with
    | nil =>
      have : y = s := by simpa using hh
      rw [this]
      rfl
    | cons p P2 =>
      have : p = s := by simpa using hh
      rw [← this]
      rfl
  · rw [List.getLast?_concat]
  · refine List.Chain'.prefix hch ?_
    exact ⟨S, by simp⟩

/-- On a graph whose resolved successor weights are nonnegative, every
edge chain has nonnegative weight sum. -/
theorem wsum_nonneg_of_chain (g : Graph)
    (hpos : ∀ x y, y ∈ succTargets g x → 0 ≤ getWeight g x y) :
    ∀ l, List.Chain' (fun a b => b ∈ succTargets g a) l → 0 ≤ wsum g l := by
  intro l
  induction l with
  | nil => intro _; exact le_refl 0
  | cons a t ih =>
    intro hc
    cases t with
    | nil => exact le_refl 0
    | cons b t2 =>
      rw [List.chain'_cons] at hc
      have h1 := hpos a b hc.1
      have h2 := ih hc.2
      show 0 ≤ getWeight g a b + wsum g (b :: t2)
      omega

/-- Every walk from the source can be shortened to a simple path of no
larger weight when no negative cycle is reachable. -/
theorem walk_to_path (g : Graph) (s : Nat) (hnnc : NoNegCycleFrom g s) :
    ∀ (n : Nat) (l : List Nat) (x : Nat), l.length ≤ n → IsWalk g s x l →
      ∃ l2, IsPath g s x l2 ∧ wsum g l2 ≤ wsum g l := by
  intro n
  induction n with
  | zero =>
    intro l x hlen hw
    match l, hlen with
    | [], _ => exact absurd hw.1 (by simp)
  | succ n ihn =>
    intro l x hlen hw
    by_cases hnd : l.Nodup
    · exact ⟨l, ⟨hw, hnd⟩, le_refl _⟩
    · have hr := walk_prefix_reach g s x l hw
      obtain ⟨hh, hl, hch⟩ := hw
      obtain ⟨P, x0, M, S, hPS⟩ := exists_dup_split l hnd
      subst hPS
      have hsplit : P ++ x0 :: M ++ x0 :: S =
          P ++ ((x0 :: M) ++ (x0 :: S)) := by simp
      rw [hsplit] at hch hl hr hlen ⊢
      rw [hsplit] at hh
      obtain ⟨hcA, hcBC, hlinkA⟩ := List.chain'_append.1 hch
      obtain ⟨hcB, hcC, hlinkB⟩ := List.chain'_append.1 hcBC
      have hlastC : (x0 :: S).getLast? = some ((x0 :: S).getLast (by simp)) :=
        List.getLast?_eq_getLast _ (by simp)
      have hlR : (P ++ (x0 :: S)).getLast? = some x := by
        simp only [List.getLast?_append] at hl ⊢
        rw [hlastC] at hl ⊢
        simpa using hl
      have hhR : (P ++ (x0 :: S)).head? = some s := by
        cases P with
        | nil => simpa using hh
        | cons p P2 => simpa using hh
      have hwR : IsWalk g s x (P ++ (x0 :: S)) := by
        refine ⟨hhR, hlR, ?_⟩
        rw [List.chain'_append]
        refine ⟨hcA, hcC, ?_⟩
        intro p hp q hq
        have hq' : x0 = q := by simpa using hq
        subst hq'
        exact hlinkA p hp x0 (by simp)
      have hwC : IsWalk g x0 x0 ((x0 :: M) ++ [x0]) := by
        refine ⟨rfl, ?_, ?_⟩
        · rw [List.getLast?_concat]
        · rw [List.chain'_append]
          refine ⟨hcB, List.chain'_singleton x0, ?_⟩
          intro p hp q hq
          have hq' : x0 = q := by simpa using hq
          subst hq'
          exact hlinkB p hp x0 rfl
      have hrC : ∀ y ∈ (x0 :: M) ++ [x0], Reach g s y := by
        intro y hy
        refine hr y ?_
        rcases List.mem_append.1 hy with h1 | h1
        · exact List.mem_append.2 (Or.inr (List.mem_append.2 (Or.inl h1)))
        · have hy' : y = x0 := by simpa using h1
          subst hy'
          exact List.mem_append.2 (Or.inr (List.mem_append.2 (Or.inl (by simp))))
      have hCnn : 0 ≤ wsum g ((x0 :: M) ++ [x0]) :=
        closedWalk_nonneg g s hnnc ((x0 :: M) ++ [x0]).length
          ((x0 :: M) ++ [x0]) x0 (le_refl _) hwC hrC
      have hsum : wsum g (P ++ ((x0 :: M) ++ (x0 :: S))) =
          wsum g (P ++ (x0 :: S)) + wsum g ((x0 :: M) ++ [x0]) := by
        have h1 : wsum g (P ++ ((x0 :: M) ++ (x0 :: S))) =
            wsum g (P ++ [x0]) + wsum g (x0 :: (M ++ x0 :: S)) :=
          wsum_append g P x0 (M ++ x0 :: S)
        have h2 : wsum g (x0 :: (M ++ x0 :: S)) =
            wsum g ((x0 :: M) ++ [x0]) + wsum g (x0 :: S) :=
          wsum_append g (x0 :: M) x0 S
        have h3 : wsum g (P ++ (x0 :: S)) =
            wsum g (P ++ [x0]) + wsum g (x0 :: S) :=
          wsum_append g P x0 S
        omega
      have hlenR : (P ++ (x0 :: S)).length ≤ n := by
        simp only [List.length_append, List.length_cons] at hlen ⊢
        omega
      obtain ⟨l2, hp2, hle2⟩ := ihn (P ++ (x0 :: S)) x hlenR hwR
      refine ⟨l2, hp2, ?_⟩
      omega

/-- At normal loop exit the distance map is exactly the shortest-path
map over the reachable set. -/
theorem exit_exact (g : Graph) (hg : GWF g) (s : Nat) (hs : s ∈ g.nodes)
    (hnnc : NoNegCycleFrom g s) (st : BF) (hL : LoopInv g s st)
    (hq : st.q = []) :
    (∀ x, (st.dist x).isSome ↔ Reach g s x) ∧
    (∀ x d, st.dist x = some d →
      (∃ l, IsPath g s x l ∧ wsum g l = d) ∧
      (∀ l, IsPath g s x l → d ≤ wsum g l)) := by
  have hinqE : ∀ x, x ∉ st.inq := by
    intro x hx
    have h5 := (hL.qinq x).1 hx
    rw [hq] at h5
    exact absurd h5 (by simp)
  have hrelall : ∀ x, (st.dist x).isSome → EdgesRelaxed g st x := by
    intro x hx
    rcases hL.relaxedOr x hx with hrel2 | hcti
    · exact hrel2
    · obtain ⟨m, _, hm⟩ := hcti
      exact absurd hm (hinqE m)
  have hsrc : (st.dist s).isSome := by
    obtain ⟨d, hd, _⟩ := hL.distSrc
    rw [hd]
    rfl
  have hdom : ∀ l x, IsWalk g s x l → (st.dist x).isSome := by
    intro l
    induction l using List.reverseRecOn with
    | nil =>
      intro x hw
      exact absurd hw.1 (by simp)
    | append_singleton l2 a ihl =>
      intro x hw
      obtain ⟨hh, hl, hch⟩ := hw
      have hax : a = x := by
        rw [List.getLast?_concat] at hl
        injection hl
      subst hax
      cases l2 with
      | nil =>
        have has : a = s := by simpa using hh
        rw [has]
        exact hsrc
      | cons b t =>
        have hyl : (b :: t).getLast? = some ((b :: t).getLast (by simp)) :=
          List.getLast?_eq_getLast _ (by simp)
        obtain ⟨hch1, hch2, hlink⟩ := List.chain'_append.1 hch
        have hprev : (st.dist ((b :: t).getLast (by simp))).isSome := by
          refine ihl ((b :: t).getLast (by simp)) ⟨?_, hyl, hch1⟩
          rw [List.head?_append_of_ne_nil] at hh
          · exact hh
          · simp
        have hstep : a ∈ succTargets g ((b :: t).getLast (by simp)) :=
          hlink _ (by rw [hyl]; rfl) a rfl
        obtain ⟨dx, dv, hdx, hdv, _⟩ := hrelall _ hprev (a, getWeight g _ a)
          ((mem_succList g _ (a, getWeight g _ a)).2 ⟨hstep, rfl⟩)
        rw [hdv]
        rfl
  have hsrc0 : st.dist s = some 0 := by
    obtain ⟨d, hd, hle⟩ := hL.distSrc
    obtain ⟨l, hwl, hws⟩ := hL.walkVal s d hd
    have hrl : ∀ y ∈ l, Reach g s y := walk_prefix_reach g s s l hwl
    have h0 := closedWalk_nonneg g s hnnc l.length l s (le_refl _) hwl hrl
    rw [hws] at h0
    have hd0 : d = 0 := by omega
    rw [hd0] at hd
    exact hd
  have hupper : ∀ x d, st.dist x = some d → ∀ l, IsWalk g s x l →
      d ≤ wsum g l := by
    intro x d hd l hw
    obtain ⟨hh, hl, hch⟩ := hw
    have hR : ∀ x2 y2, x2 ∈ l → y2 ∈ succTargets g x2 → ∃ dx dy,
        st.dist x2 = some dx ∧ st.dist y2 = some dy ∧
        dy ≤ dx + getWeight g x2 y2 := by
      intro x2 y2 hx2 hy2
      have hrx2 : Reach g s x2 := walk_prefix_reach g s x l ⟨hh, hl, hch⟩ x2 hx2
      obtain ⟨lx2, hwx2⟩ := hrx2
      have hdx2 : (st.dist x2).isSome := hdom lx2 x2 hwx2
      obtain ⟨dx, dv, hdx, hdv, hle⟩ := hrelall x2 hdx2 (y2, getWeight g x2 y2)
        ((mem_succList g x2 (y2, getWeight g x2 y2)).2 ⟨hy2, rfl⟩)
      exact ⟨dx, dv, hdx, hdv, hle⟩
    have := walk_telescope g st l s x 0 d hch hh hl hsrc0 hd hR
    omega
  refine ⟨?_, ?_⟩
  · intro x
    constructor
    · intro hx
      obtain ⟨d, hd⟩ := Option.isSome_iff_exists.1 hx
      obtain ⟨l, hwl, _⟩ := hL.walkVal x d hd
      exact ⟨l, hwl⟩
    · intro hx
      obtain ⟨l, hwl⟩ := hx
      exact hdom l x hwl
  · intro x d hd
    obtain ⟨l, hwl, hws⟩ := hL.walkVal x d hd
    obtain ⟨l2, hp2, hle2⟩ := walk_to_path g s hnnc l.length l x (le_refl _) hwl
    have hge : d ≤ wsum g l2 := hupper x d hd l2 hp2.1
    refine ⟨⟨l2, hp2, ?_⟩, ?_⟩
    · omega
    · intro l3 hp3
      exact hupper x d hd l3 hp3.1

/-- C1: on a graph with no negative cycle reachable from a member
source, `bellman_ford_tree` returns cycle witness none, keys the
distance and predecessor maps exactly on the reachable nodes, and
assigns every keyed node exactly the minimum path weight from the
source. -/
theorem C1_shortest_path_tree (g : Graph) (hg : GWF g) (s : Nat)
    (hs : s ∈ g.nodes) (hnnc : NoNegCycleFrom g s)
    (pr : Nat → Option (Option Nat)) (di : Nat → Option Int) (w : Option Nat)
    (hrun : bellman_ford_tree g s = .ok (pr, di, w)) :
    w = none ∧
    (∀ x, (di x).isSome ↔ Reach g s x) ∧
    (∀ x, (pr x).isSome ↔ Reach g s x) ∧
    (∀ x d, di x = some d →
      (∃ l, IsPath g s x l ∧ wsum g l = d) ∧
      (∀ l, IsPath g s x l → d ≤ wsum g l)) := by
  obtain ⟨st, hok, hL, hq⟩ := bellman_ford_tree_no_cycle g hg s hs hnnc
  rw [hok] at hrun
  simp only [Except.ok.injEq, Prod.mk.injEq] at hrun
  obtain ⟨h1, h2, h3⟩ := hrun
  subst h1
  subst h2
  subst h3
  obtain ⟨hiff, hmin⟩ := exit_exact g hg s hs hnnc st hL hq
  exact ⟨rfl, hiff, fun x => (hL.domIff x).symm.trans (hiff x), hmin⟩

/-- Witness for C1 at a concrete input: the simple test graph from
source 1 (all weights positive, so no negative cycle exists). -/
theorem C1_shortest_path_tree_witness :
    ∃ pr di w, bellman_ford_tree gSimple 1 = .ok (pr, di, w) ∧
      (w = none ∧
       (∀ x, (di x).isSome ↔ Reach gSimple 1 x) ∧
       (∀ x, (pr x).isSome ↔ Reach gSimple 1 x) ∧
       (∀ x d, di x = some d →
         (∃ l, IsPath gSimple 1 x l ∧ wsum gSimple l = d) ∧
         (∀ l, IsPath gSimple 1 x l → d ≤ wsum gSimple l))) := by
  have hnnc : NoNegCycleFrom gSimple 1 := by
    intro l hc hr
    refine wsum_nonneg_of_chain gSimple ?_ l hc.2.2.2
    intro x y hy
    rw [mem_succTargets] at hy
    obtain ⟨w, hw⟩ := hy
    simp [gSimple] at hw
    rcases hw with ⟨rfl, rfl, rfl⟩ | ⟨rfl, rfl, rfl⟩ | ⟨rfl, rfl, rfl⟩ |
      ⟨rfl, rfl, rfl⟩ | ⟨rfl, rfl, rfl⟩ <;> decide
  refine ⟨_, _, _, rfl, ?_⟩
  exact C1_shortest_path_tree gSimple ⟨by decide, by decide, by decide⟩ 1
    (by decide) hnnc _ _ _ rfl

/-- C7: with no reachable negative cycle and an unreachable target,
`bellman_ford` raises no error and returns infinite length, an empty
node sequence and a false negative-cycle flag. -/
theorem C7_unreachable_infinity (g : Graph) (hg : GWF g) (s t : Nat)
    (hs : s ∈ g.nodes) (hnnc : NoNegCycleFrom g s) (ht : ¬Reach g s t) :
    bellman_ford g s t = .ok (⊤, [], false) := by
  obtain ⟨st, hok, hL, hq⟩ := bellman_ford_tree_no_cycle g hg s hs hnnc
  have hts : t ≠ s := by
    intro h
    subst h
    exact ht ⟨[t], rfl, rfl, List.chain'_singleton t⟩
  have hdt : st.dist t = none := by
    cases hdt : st.dist t with
    | none => rfl
    | some d =>
      obtain ⟨l, hwl, _⟩ := hL.walkVal t d hdt
      exact absurd ⟨l, hwl⟩ ht
  have hpt : st.pred t = none := by
    cases hpt : st.pred t with
    | none => rfl
    | some o =>
      have h5 : (st.pred t).isSome := by rw [hpt]; rfl
      have h6 := (hL.domIff t).2 h5
      rw [hdt] at h6
      exact absurd h6 (by simp)
  have hwp : walkPath st.pred s (g.nodes.length + 2) t [] = .ok [] := by
    have h2 : g.nodes.length + 2 = (g.nodes.length + 1) + 1 := rfl
    rw [h2, walkPath, hpt]
    show (if t = s then Except.ok [t] else Except.ok ([] : List Nat)) =
      Except.ok []
    rw [if_neg hts]
  rw [show bellman_ford g s t = (do
    let (pred, _dist, negative_cycle_end) ← bellman_ford_tree g s
    let (nodes, negative_cycle) ←
      match negative_cycle_end with
      | some w => do
          let nodes ← walkCycle pred (g.nodes.length + 3) w []
          pure (nodes, true)
      | none => do
          let nodes ← walkPath pred s (g.nodes.length + 2) t []
          pure (nodes, false)
    let length : WithTop Int :=
      if nodes = [] then ⊤ else (codeWeightSum g nodes : Int)
    pure (length, nodes, negative_cycle)) from rfl, hok]
  simp only [bind, Except.bind, hwp, pure, Except.pure]
  simp

/-- Witness for C7 at a concrete input: the disconnected test graph,
source 1 and target 4 (scenario 3 of the test scripts). -/
theorem C7_unreachable_infinity_witness :
    bellman_ford gDisconnected 1 4 = .ok (⊤, [], false) := by
  have hreach12 : ∀ (l : List Nat) (x : Nat), IsWalk gDisconnected 1 x l →
      x = 1 ∨ x = 2 := by
    intro l
    induction l using List.reverseRecOn with
    | nil =>
      intro x hw
      exact absurd hw.1 (by simp)
    | append_singleton l2 a ihl =>
      intro x hw
      obtain ⟨hh, hl, hch⟩ := hw
      have hax : a = x := by
        rw [List.getLast?_concat] at hl
        injection hl
      subst hax
      cases l2 with
      | nil =>
        have h1 : a = 1 := by simpa using hh
        exact Or.inl h1
      | cons b tl =>
        have hyl : (b :: tl).getLast? = some ((b :: tl).getLast (by simp)) :=
          List.getLast?_eq_getLast _ (by simp)
        obtain ⟨hch1, hch2, hlink⟩ := List.chain'_append.1 hch
        have hprev := ihl ((b :: tl).getLast (by simp))
          ⟨by
            rw [List.head?_append_of_ne_nil] at hh
            · exact hh
            · simp, hyl, hch1⟩
        have hstep : a ∈ succTargets gDisconnected ((b :: tl).getLast (by simp)) :=
          hlink _ (by rw [hyl]; rfl) a rfl
        rcases hprev with h1 | h1
        · rw [h1] at hstep
          have h6 : succTargets gDisconnected 1 = [2] := rfl
          rw [h6] at hstep
          have h7 : a = 2 := by simpa using hstep
          exact Or.inr h7
        · rw [h1] at hstep
          have h6 : succTargets gDisconnected 2 = [] := rfl
          rw [h6] at hstep
          exact absurd hstep (by simp)
  have hnr : ¬Reach gDisconnected 1 4 := by
    intro hr
    obtain ⟨l, hw⟩ := hr
    rcases hreach12 l 4 hw with h | h
    · exact absurd h (by decide)
    · exact absurd h (by decide)
  have hnnc : NoNegCycleFrom gDisconnected 1 := by
    intro l hc hr
    refine wsum_nonneg_of_chain gDisconnected ?_ l hc.2.2.2
    intro x y hy
    rw [mem_succTargets] at hy
    obtain ⟨w, hw⟩ := hy
    simp [gDisconnected] at hw
    rcases hw with ⟨rfl, rfl, rfl⟩ | ⟨rfl, rfl, rfl⟩ <;> decide
  exact C7_unreachable_infinity gDisconnected ⟨by decide, by decide, by decide⟩
    1 4 (by decide) hnnc hnr
